import Mathlib

/-!
Verification of a chunked array storage engine with structured (record)
element types and per-field byte order, together with the reference script
`generate_struct.py` that writes a three-field record array
(int32 little-endian, int32 big-endian, float32 little-endian) of shape
(128,128) with chunk shape (32,32).

The engine itself (DType Descriptor, Chunk Codec, Chunk Store, Array
Engine, Metadata Manager) is modelled from the specification; the script's
data is translated from the source.
-/

/-! ## Byte-level scalar codec -/

/-- A resolved byte order: little- or big-endian. -/
inductive Endian where
  | little
  | big
deriving DecidableEq

/-- Declared byte order of a field: little, big, or host-native. -/
inductive ByteOrder where
  | little
  | big
  | native
deriving DecidableEq

/-- Modelled from the spec: a `native` byte order resolves to the host
platform's endianness; explicit orders stand for themselves. -/
def ByteOrder.resolve (host : Endian) : ByteOrder → Endian
  | .little => .little
  | .big => .big
  | .native => host

/-- Little-endian byte serialization of a natural number into `k` bytes
(least significant byte first). -/
def bytesLE : Nat → Nat → List Nat
  | 0, _ => []
  | k + 1, v => v % 256 :: bytesLE k (v / 256)

/-- Little-endian byte deserialization. -/
def natLE : List Nat → Nat
  | [] => 0
  | b :: bs => b + 256 * natLE bs

/-- Modelled from the spec: `encode_scalar` lays out a scalar's bytes in
the given resolved byte order (two's-complement / IEEE754 bit patterns are
carried as their `Nat` bit patterns). -/
def encodeScalarBytes (e : Endian) (k v : Nat) : List Nat :=
  match e with
  | .little => bytesLE k v
  | .big => (bytesLE k v).reverse

/-- Modelled from the spec: `decode_scalar`, inverse of `encodeScalarBytes`. -/
def decodeScalarBytes (e : Endian) (bs : List Nat) : Nat :=
  match e with
  | .little => natLE bs
  | .big => natLE bs.reverse

/-- Two's-complement reading of a `k`-byte bit pattern as an integer. -/
def intOfBits (k b : Nat) : Int :=
  if 2 * b < 2 ^ (8 * k) then (b : Int) else (b : Int) - 2 ^ (8 * k)

/-! ## DType descriptor -/

/-- Supported scalar kinds. -/
inductive ScalarKind where
  | int8
  | int16
  | int32
  | int64
  | float32
  | float64
deriving DecidableEq

/-- Size in bytes of a scalar kind. -/
def ScalarKind.size : ScalarKind → Nat
  | .int8 => 1
  | .int16 => 2
  | .int32 => 4
  | .int64 => 8
  | .float32 => 4
  | .float64 => 8

/-- Modelled from the spec: one field of a record dtype — name, scalar
kind, declared byte order, and byte offset within the record. -/
structure FieldSpec where
  name : String
  kind : ScalarKind
  order : ByteOrder
  offset : Nat
deriving DecidableEq

/-- Byte size of a field, derived from its scalar kind. -/
def FieldSpec.size (f : FieldSpec) : Nat := f.kind.size

/-- Modelled from the spec: a DType Descriptor is an ordered sequence of
fields. -/
structure Descriptor where
  fields : List FieldSpec
deriving DecidableEq

/-- Modelled from the spec: total record size = max over fields of
`offset + size`. -/
def Descriptor.sizeOf (d : Descriptor) : Nat :=
  (d.fields.map (fun f => f.offset + f.size)).foldr max 0

/-- Two fields occupy disjoint byte ranges. -/
def FieldSpec.disjointB (f g : FieldSpec) : Bool :=
  decide (f.offset + f.size ≤ g.offset) || decide (g.offset + g.size ≤ f.offset)

/-- Modelled from the spec: a descriptor is valid when field names are
unique and field byte ranges do not overlap (sizes are positive by
construction of `ScalarKind.size`). -/
def descOkB (d : Descriptor) : Bool :=
  decide (d.fields.map FieldSpec.name).Nodup &&
    decide (d.fields.Pairwise fun f g => f.disjointB g = true)

/-- Errors of the storage engine, from the spec's error taxonomy. -/
inductive Err where
  | schemaError
  | alreadyExists
  | notFound
  | outOfBounds
  | corruptChunk
  | ioErr
  | shrinkNotSupported
deriving DecidableEq

/-- Modelled from the spec: `validate(fields)` returns the descriptor or
fails with `SchemaError` on overlap or duplicate names. -/
def validate (d : Descriptor) : Except Err Descriptor :=
  if descOkB d then .ok d else .error .schemaError

/-! ## Record codec (per-element part of the Chunk Codec) -/

/-- Overwrite `bs` into `buf` starting at byte offset `off`. -/
def writeAt (buf : List Nat) (off : Nat) (bs : List Nat) : List Nat :=
  buf.take off ++ bs ++ buf.drop (off + bs.length)

/-- Extract `len` bytes of `buf` starting at offset `off`. -/
def sliceAt (buf : List Nat) (off len : Nat) : List Nat :=
  (buf.drop off).take len

/-- Encode one field's value into its resolved byte order. -/
def encodeScalar (host : Endian) (f : FieldSpec) (v : Nat) : List Nat :=
  encodeScalarBytes (f.order.resolve host) f.size v

/-- Decode one field's value from its resolved byte order. -/
def decodeScalar (host : Endian) (f : FieldSpec) (bs : List Nat) : Nat :=
  decodeScalarBytes (f.order.resolve host) bs

/-- Fold writing a list of field/value pairs into a byte buffer. -/
def encodeFieldsInto (host : Endian) (buf : List Nat) (fvs : List (FieldSpec × Nat)) :
    List Nat :=
  fvs.foldl (fun b fv => writeAt b fv.1.offset (encodeScalar host fv.1 fv.2)) buf

/-- Modelled from the spec: encode one record element — for each field in
descriptor order, write its scalar bytes at the field's offset within the
element's byte span (padding bytes are zero). -/
def encodeRecord (host : Endian) (d : Descriptor) (v : List Nat) : List Nat :=
  encodeFieldsInto host (List.replicate d.sizeOf 0) (d.fields.zip v)

/-- Modelled from the spec: decode one record element — for each field,
read its scalar bytes at the field's offset. -/
def decodeRecord (host : Endian) (d : Descriptor) (buf : List Nat) : List Nat :=
  d.fields.map fun f => decodeScalar host f (sliceAt buf f.offset f.size)

/-- A record value list is well-typed for a descriptor: one value per
field, each within the field's representable bit-pattern range. -/
def recOkB (d : Descriptor) (v : List Nat) : Bool :=
  v.length == d.fields.length &&
    (d.fields.zip v).all fun p => p.2 < 256 ^ p.1.size

/-! ## Multi-dimensional index bookkeeping -/

/-- Product of the dimensions of a shape. -/
def prodL (s : List Nat) : Nat := s.foldr (· * ·) 1

/-- Row-major enumeration of all indices of a box of the given shape. -/
def allIdx : List Nat → List (List Nat)
  | [] => [[]]
  | n :: s => (List.range n).flatMap fun i => (allIdx s).map (i :: ·)

/-- Row-major linearization of an index within a shape. -/
def flattenIdx : List Nat → List Nat → Nat
  | _ :: s, i :: ix => i * prodL s + flattenIdx s ix
  | _, _ => 0

/-- Pointwise `≤` on equal-length index lists. -/
def pwLeB (a b : List Nat) : Bool :=
  a.length == b.length && (a.zip b).all fun p => p.1 ≤ p.2

/-- Pointwise `<` on equal-length index lists. -/
def pwLtB (a b : List Nat) : Bool :=
  a.length == b.length && (a.zip b).all fun p => p.1 < p.2

/-- Index lies in the box `[0, s)`. -/
def inBoxB (ix s : List Nat) : Bool := pwLtB ix s

/-! ## Chunk Codec -/

/-- A decoded chunk buffer: a record value for every index of the chunk
box. -/
def Buf : Type := List Nat → List Nat

/-- Modelled from the spec: Chunk Codec `encode` — serialize the records
of a chunk box in row-major order, honoring per-field byte order. -/
def encodeChunk (host : Endian) (d : Descriptor) (cs : List Nat) (buf : Buf) :
    List Nat :=
  (allIdx cs).flatMap fun ix => encodeRecord host d (buf ix)

/-- Modelled from the spec: Chunk Codec `decode` — read the record at a
given chunk-box index out of the serialized bytes. -/
def decodeChunk (host : Endian) (d : Descriptor) (cs : List Nat) (bytes : List Nat) :
    Buf :=
  fun ix => decodeRecord host d (sliceAt bytes (flattenIdx cs ix * d.sizeOf) d.sizeOf)

/-! ## Array metadata and chunk store -/

/-- Modelled from the spec: array metadata — shape, chunk shape, dtype
descriptor and fill value (one record, held as field values). -/
structure Metadata where
  shape : List Nat
  chunkShape : List Nat
  dtype : Descriptor
  fillValue : List Nat
deriving DecidableEq

/-- Modelled from the spec: the Chunk Store maps chunk keys to raw chunk
bytes; `failKeys` models which keys the underlying storage fails to write
(an `IOError`). -/
structure Store where
  data : List Nat → Option (List Nat)
  failKeys : List Nat → Bool

/-- Modelled from the spec: `put(key, bytes)` — store a chunk, failing
with an `IOError` on an underlying write failure; on failure the store is
unchanged. -/
def putChunk (st : Store) (k : List Nat) (b : List Nat) : Store × Option Err :=
  if st.failKeys k then (st, some .ioErr)
  else ({ st with data := fun k' => if k' = k then some b else st.data k' }, none)

/-- Expected byte length of one encoded chunk. -/
def chunkByteLen (md : Metadata) : Nat := prodL md.chunkShape * md.dtype.sizeOf

/-- Modelled from the spec: decode a possibly-absent stored chunk — absent
chunks are synthesized as fill-value-filled buffers; stored bytes of the
wrong length fail with `CorruptChunkError`. -/
def loadBuf (host : Endian) (md : Metadata) (stored : Option (List Nat)) :
    Except Err Buf :=
  match stored with
  | none => .ok fun _ => md.fillValue
  | some bytes =>
      if bytes.length = chunkByteLen md then
        .ok (decodeChunk host md.dtype md.chunkShape bytes)
      else .error .corruptChunk

/-! ## Regions and chunk-key geometry -/

/-- A half-open rectangular region `[start, stop)` of element indices. -/
structure Region where
  start : List Nat
  stop : List Nat
deriving DecidableEq

/-- An element index lies inside a region. -/
def inRegionB (R : Region) (ix : List Nat) : Bool :=
  pwLeB R.start ix && pwLtB ix R.stop

/-- Shape of a region. -/
def regionShape (R : Region) : List Nat :=
  List.zipWith (fun a b => b - a) R.start R.stop

/-- Chunk key of the chunk containing an element index. -/
def chunkKeyOf (cs ix : List Nat) : List Nat := List.zipWith (· / ·) ix cs

/-- Index of an element within its chunk. -/
def inChunkOf (cs ix : List Nat) : List Nat := List.zipWith (· % ·) ix cs

/-- First element index of a chunk. -/
def chunkOrigin (cs k : List Nat) : List Nat := List.zipWith (· * ·) k cs

/-- Ceiling division. -/
def ceilDiv (a b : Nat) : Nat := (a + b - 1) / b

/-- All keys of a box `[lo, hi)` of chunk indices, row-major. -/
def boxList (lo hi : List Nat) : List (List Nat) :=
  (allIdx (List.zipWith (fun a b => b - a) lo hi)).map (List.zipWith (· + ·) lo)

/-- Modelled from the spec: the set of chunk keys intersecting a region —
the integer range of chunk indices per dimension covering the region's
extent. -/
def chunkKeysOf (R : Region) (cs : List Nat) : List (List Nat) :=
  boxList (List.zipWith (· / ·) R.start cs) (List.zipWith ceilDiv R.stop cs)

/-- The region fully covers a chunk's full box. -/
def coversChunkB (R : Region) (cs k : List Nat) : Bool :=
  pwLeB R.start (chunkOrigin cs k) &&
    pwLeB (List.zipWith (· + ·) (chunkOrigin cs k) cs) R.stop

/-! ## Array Engine -/

/-- The chunk buffer written when a region fully covers a chunk: every
cell comes from the written values. -/
def coverBuf (R : Region) (V : Buf) (cs k : List Nat) : Buf :=
  fun e =>
    V (List.zipWith (fun a b => a - b)
        (List.zipWith (· + ·) (chunkOrigin cs k) e) R.start)

/-- The chunk buffer produced by read-modify-write: cells inside the
region come from the written values, others keep the prior buffer. -/
def overlayBuf (R : Region) (V : Buf) (cs k : List Nat) (old : Buf) : Buf :=
  fun e =>
    let g := List.zipWith (· + ·) (chunkOrigin cs k) e
    if inRegionB R g then V (List.zipWith (fun a b => a - b) g R.start) else old e

/-- Modelled from the spec: write one chunk of a region — if the region
fully covers the chunk, encode the values directly and store (skipping
the read); otherwise read-modify-write (load or synthesize the existing
buffer, overlay the sub-region, re-encode, store). -/
def writeOneChunk (host : Endian) (md : Metadata) (R : Region) (V : Buf)
    (st : Store) (k : List Nat) : Store × Option Err :=
  if coversChunkB R md.chunkShape k then
    putChunk st k (encodeChunk host md.dtype md.chunkShape (coverBuf R V md.chunkShape k))
  else
    match loadBuf host md (st.data k) with
    | .error e => (st, some e)
    | .ok old =>
        putChunk st k
          (encodeChunk host md.dtype md.chunkShape (overlayBuf R V md.chunkShape k old))

/-- Modelled from the spec: write the intersecting chunks in order; a
failed chunk write aborts further chunk writes and reports the first
failure, leaving previously-written chunks in their new state. -/
def writeChunks (host : Endian) (md : Metadata) (R : Region) (V : Buf) :
    Store → List (List Nat) → Store × Option Err
  | st, [] => (st, none)
  | st, k :: ks =>
      match writeOneChunk host md R V st k with
      | (st', none) => writeChunks host md R V st' ks
      | (st', some e) => (st', some e)

/-- One dimension of a requested region: an explicit half-open slice, or
an explicit request for the full axis. -/
inductive DimSpec where
  | slice (start stop : Nat)
  | full
deriving DecidableEq

/-- Modelled from the spec: resolve a requested region against the array
shape — a full-axis request becomes `[0, n)`; an explicit slice whose stop
exceeds the bound is an `OutOfBoundsError`, never silently clamped. -/
def resolveDims : List Nat → List DimSpec → Except Err (List (Nat × Nat))
  | [], [] => .ok []
  | n :: sh, .full :: ds => (resolveDims sh ds).map (fun r => (0, n) :: r)
  | n :: sh, .slice a b :: ds =>
      if b ≤ n then (resolveDims sh ds).map (fun r => (a, b) :: r)
      else .error .outOfBounds
  | _, _ => .error .outOfBounds

/-- Region denoted by a resolved dimension list. -/
def regionOfDims (l : List (Nat × Nat)) : Region :=
  ⟨l.map Prod.fst, l.map Prod.snd⟩

/-- Shape a request denotes, independent of bounds checking. -/
def requestShape (shape : List Nat) (rs : List DimSpec) : List Nat :=
  List.zipWith (fun n d => match d with | DimSpec.full => n | DimSpec.slice a b => b - a)
    shape rs

/-- Modelled from the spec: Array Engine `write` — `values.shape` must
equal the region's shape; the region must be within array bounds else the
call fails with `OutOfBoundsError`; then each intersecting chunk is
written in order. The returned store reflects all chunk writes attempted
before any failure. -/
def write (host : Endian) (md : Metadata) (st : Store) (rs : List DimSpec)
    (vshape : List Nat) (V : Buf) : Store × Option Err :=
  if rs.length ≠ md.shape.length then (st, some .outOfBounds)
  else
    match resolveDims md.shape rs with
    | .error e => (st, some e)
    | .ok dims =>
        let R := regionOfDims dims
        if vshape ≠ regionShape R then (st, some .schemaError)
        else writeChunks host md R V st (chunkKeysOf R md.chunkShape)

/-- Copy loop of `read`: for each intersecting chunk, decode it (or
synthesize a fill-value buffer) and copy the relevant sub-region into the
result buffer. -/
def readChunks (host : Endian) (md : Metadata) (st : Store) (R : Region) :
    Buf → List (List Nat) → Except Err Buf
  | acc, [] => .ok acc
  | acc, k :: ks =>
      match loadBuf host md (st.data k) with
      | .error e => .error e
      | .ok cbuf =>
          readChunks host md st R
            (fun i =>
              let g := List.zipWith (· + ·) R.start i
              if inRegionB R g && (chunkKeyOf md.chunkShape g = k) then
                cbuf (inChunkOf md.chunkShape g)
              else acc i)
            ks

/-- Modelled from the spec: Array Engine `read` — the region must be
within bounds; the result buffer is assembled chunk by chunk, with absent
chunks synthesized from the fill value, and is indexed relative to the
region's start. -/
def readRegion (host : Endian) (md : Metadata) (st : Store) (R : Region) :
    Except Err Buf :=
  if pwLeB R.stop md.shape && (R.start.length == R.stop.length) then
    readChunks host md st R (fun _ => md.fillValue) (chunkKeysOf R md.chunkShape)
  else .error .outOfBounds

/-- The logical value of one cell of the array: the record decoded from
its chunk's stored bytes, or the fill value when the chunk is absent. -/
def cellValue (host : Endian) (md : Metadata) (st : Store) (ix : List Nat) :
    List Nat :=
  match st.data (chunkKeyOf md.chunkShape ix) with
  | none => md.fillValue
  | some bytes => decodeChunk host md.dtype md.chunkShape bytes (inChunkOf md.chunkShape ix)

/-- Modelled from the spec: `resize` is grow-only — it fails with
`ShrinkNotSupportedError` if any dimension decreases, leaving metadata and
chunks unchanged. -/
def resize (md : Metadata) (st : Store) (newShape : List Nat) :
    (Metadata × Store) × Option Err :=
  if newShape.length ≠ md.shape.length then ((md, st), some .schemaError)
  else if (newShape.zip md.shape).any fun p => p.1 < p.2 then
    ((md, st), some .shrinkNotSupported)
  else (({ md with shape := newShape }, st), none)

/-! ## Metadata Manager: save / load -/

/-- Self-delimiting serialization of a natural number: its base-255
digits (least significant first), terminated by the byte 255. The fuel
argument makes the recursion structural; `fuel > n` suffices. -/
def encNAux : Nat → Nat → List Nat
  | 0, _ => [255]
  | fuel + 1, n => if n = 0 then [255] else n % 255 :: encNAux fuel (n / 255)

/-- Serialize a natural number, self-delimiting. -/
def encN (n : Nat) : List Nat := encNAux (n + 1) n

/-- Parse a self-delimiting natural number, returning it with the unread
rest of the input. -/
def decN : List Nat → Option (Nat × List Nat)
  | [] => none
  | b :: bs =>
      if b = 255 then some (0, bs)
      else
        match decN bs with
        | some (n, r) => some (b + 255 * n, r)
        | none => none

/-- Serialize a list of naturals: length, then the elements. -/
def encList (l : List Nat) : List Nat := encN l.length ++ l.flatMap encN

/-- Parse a fixed count of serialized naturals. -/
def decListAux : Nat → List Nat → Option (List Nat × List Nat)
  | 0, bs => some ([], bs)
  | c + 1, bs =>
      match decN bs with
      | none => none
      | some (n, r) =>
          match decListAux c r with
          | none => none
          | some (l, r') => some (n :: l, r')

/-- Parse a length-prefixed list of naturals. -/
def decList (bs : List Nat) : Option (List Nat × List Nat) :=
  match decN bs with
  | none => none
  | some (c, r) => decListAux c r

/-- Serialize a string as the list of its character codes. -/
def encStr (s : String) : List Nat := encList (s.data.map Char.toNat)

/-- Parse a serialized string. -/
def decStr (bs : List Nat) : Option (String × List Nat) :=
  match decList bs with
  | none => none
  | some (l, r) => some (String.mk (l.map Char.ofNat), r)

/-- Numeric tag of a scalar kind in the metadata document. -/
def kindTag : ScalarKind → Nat
  | .int8 => 0
  | .int16 => 1
  | .int32 => 2
  | .int64 => 3
  | .float32 => 4
  | .float64 => 5

/-- Scalar kind of a numeric tag. -/
def kindOfTag : Nat → Option ScalarKind
  | 0 => some .int8
  | 1 => some .int16
  | 2 => some .int32
  | 3 => some .int64
  | 4 => some .float32
  | 5 => some .float64
  | _ => none

/-- Numeric tag of a byte order; the spec's `"<"` / `">"` / `"="` byte
order literals are preserved verbatim as distinct tags. -/
def orderTag : ByteOrder → Nat
  | .little => 0
  | .big => 1
  | .native => 2

/-- Byte order of a numeric tag. -/
def orderOfTag : Nat → Option ByteOrder
  | 0 => some .little
  | 1 => some .big
  | 2 => some .native
  | _ => none

/-- Serialize one dtype field: name, kind, byte order, offset. -/
def encField (f : FieldSpec) : List Nat :=
  encStr f.name ++ encN (kindTag f.kind) ++ encN (orderTag f.order) ++ encN f.offset

/-- Parse one dtype field. -/
def decField (bs : List Nat) : Option (FieldSpec × List Nat) :=
  match decStr bs with
  | none => none
  | some (nm, r1) =>
      match decN r1 with
      | none => none
      | some (kt, r2) =>
          match kindOfTag kt with
          | none => none
          | some kd =>
              match decN r2 with
              | none => none
              | some (ot, r3) =>
                  match orderOfTag ot with
                  | none => none
                  | some od =>
                      match decN r3 with
                      | none => none
                      | some (off, r4) => some (⟨nm, kd, od, off⟩, r4)

/-- Parse a fixed count of serialized fields. -/
def decFieldsAux : Nat → List Nat → Option (List FieldSpec × List Nat)
  | 0, bs => some ([], bs)
  | c + 1, bs =>
      match decField bs with
      | none => none
      | some (f, r) =>
          match decFieldsAux c r with
          | none => none
          | some (fs, r') => some (f :: fs, r')

/-- Format version tag of the metadata document. -/
def metaVersion : Nat := 1

/-- Modelled from the spec: Metadata Manager `save` — serialize the
metadata to a self-describing document (version tag, shape, chunk shape,
dtype descriptor as an ordered field list, fill value). -/
def saveMeta (m : Metadata) : List Nat :=
  encN metaVersion ++ encList m.shape ++ encList m.chunkShape ++
    encN m.dtype.fields.length ++ m.dtype.fields.flatMap encField ++
    encList m.fillValue

/-- Validity checks `load` applies to a parsed metadata document. -/
def metaOkB (m : Metadata) : Bool :=
  descOkB m.dtype &&
    (m.chunkShape.length == m.shape.length) &&
    m.shape.all (0 < ·) &&
    m.chunkShape.all (0 < ·) &&
    ((m.chunkShape.zip m.shape).all fun p => p.1 ≤ p.2) &&
    (m.fillValue.length == m.dtype.fields.length)

/-- Modelled from the spec: Metadata Manager `load` — parse the document,
failing with `SchemaError` on truncation, unknown version, or an invalid
descriptor (overlapping fields, duplicate names, bad shapes). -/
def loadMeta (bs : List Nat) : Except Err Metadata :=
  match decN bs with
  | none => .error .schemaError
  | some (ver, r0) =>
      if ver ≠ metaVersion then .error .schemaError
      else
        match decList r0 with
        | none => .error .schemaError
        | some (shape, r1) =>
            match decList r1 with
            | none => .error .schemaError
            | some (cshape, r2) =>
                match decN r2 with
                | none => .error .schemaError
                | some (nf, r3) =>
                    match decFieldsAux nf r3 with
                    | none => .error .schemaError
                    | some (fs, r4) =>
                        match decList r4 with
                        | none => .error .schemaError
                        | some (fill, r5) =>
                            let m : Metadata := ⟨shape, cshape, ⟨fs⟩, fill⟩
                            if r5 = [] ∧ metaOkB m then .ok m
                            else .error .schemaError

/-- Save, load, and save again: the byte document produced by re-saving a
loaded document (empty on a load failure). -/
def resavedMeta (m : Metadata) : List Nat :=
  match loadMeta (saveMeta m) with
  | .ok m' => saveMeta m'
  | .error _ => []

/-! ## Binary32 rounding (for the script's float32 field) -/

/-- Floor of the base-2 logarithm, fuel-based structural recursion
(`fuel ≥ n` suffices). -/
def log2fuel : Nat → Nat → Nat
  | 0, _ => 0
  | fuel + 1, n => if n ≤ 1 then 0 else 1 + log2fuel fuel (n / 2)

/-- Round the rational `n / d` to the nearest integer, ties to even. -/
def rneNat (n d : Nat) : Nat :=
  let q := n / d
  let r2 := 2 * (n % d)
  if r2 < d then q else if d < r2 then q + 1 else if q % 2 = 0 then q else q + 1

/-- Largest `e` with `b * 2 ^ e ≤ a`, for `a ≥ b > 0` (the floor base-2
logarithm of `a / b`). -/
def log2floorFrac (a b : Nat) : Nat :=
  let c := log2fuel a a - log2fuel b b
  if b * 2 ^ (c + 1) ≤ a then c + 1 else if b * 2 ^ c ≤ a then c else c - 1

/-- IEEE754 binary32 bit pattern nearest (ties to even) to the
nonnegative rational `n / d` (with `d > 0`): normals, subnormals and
overflow to infinity follow the standard layout. -/
def bitsRoundF32Pos (n d : Nat) : Nat :=
  if n = 0 then 0
  else if n * 2 ^ 126 < d then
    rneNat (n * 2 ^ 149) d
  else
    let E := log2floorFrac (n * 2 ^ 126) d
    let m := rneNat (n * 2 ^ (149 - E)) (d * 2 ^ (E - 149))
    let bits := E * 2 ^ 23 + m
    if 255 * 2 ^ 23 ≤ bits then 255 * 2 ^ 23 else bits

/-- Rational value denoted by a binary32 bit pattern (finite
interpretation; normals and subnormals). -/
def ratOfF32 (b : Nat) : ℚ :=
  let s := b / 2 ^ 31
  let ex := b / 2 ^ 23 % 256
  let m := b % 2 ^ 23
  let mag : ℚ := ((if ex = 0 then 2 * m else (2 ^ 23 + m) * 2 ^ ex : Nat) : ℚ) / 2 ^ 150
  if s = 1 then -mag else mag

/-! ## The reference script `generate_struct.py` -/

/-- The script's record dtype:
`[("field_1", "<i4"), ("field_2", ">i4"), ("field_n", "<f4")]`, laid out
at offsets 0, 4, 8. -/
def scriptDtype : Descriptor :=
  ⟨[⟨"field_1", .int32, .little, 0⟩,
    ⟨"field_2", .int32, .big, 4⟩,
    ⟨"field_n", .float32, .little, 8⟩]⟩

/-- The script's array metadata: shape (128,128), chunks (32,32), the
record dtype, and a zero fill value. -/
def scriptMeta : Metadata :=
  ⟨[128, 128], [32, 32], scriptDtype, [0, 0, 0]⟩

/-- The record the script assigns at row `i` (every column `j` gets the
same record, broadcast from column vectors): `field_1 = i` (little-endian
int32), `field_2 = i` (value-converted to big-endian int32), and
`field_n`, the float32 value `i / 10`, carried as its bit pattern. -/
def scriptRecord (i : Nat) : List Nat :=
  [i % 2 ^ 32, i % 2 ^ 32, bitsRoundF32Pos (i % 2 ^ 32) 10]

/-- The full value array the script writes: cell `[i, j]` holds
`scriptRecord i`. -/
def scriptBuf : Buf := fun ix => scriptRecord (ix.headD 0)

/-- A store with no chunks and no failing keys (a fresh array). -/
def emptyStore : Store := ⟨fun _ => none, fun _ => false⟩

/-- The store after the script's full-array write `z[:] = arr`, on a
little-endian host. -/
def scriptStore : Store :=
  (write .little scriptMeta emptyStore [.full, .full] [128, 128] scriptBuf).1

/-- A well-formed store for given metadata: every stored chunk has the
exact encoded byte length and holds genuine bytes (< 256). -/
def wfStore (md : Metadata) (st : Store) : Prop :=
  ∀ k b, st.data k = some b → b.length = chunkByteLen md ∧ ∀ x ∈ b, x < 256

/-- The bytes `write` stores for one intersecting chunk, as a function of
that chunk's previously stored bytes: the direct encoding when the region
covers the chunk, otherwise the re-encoded overlay of the loaded (or
fill-synthesized) buffer. Empty on a (corrupt-chunk) load failure. -/
def chunkNewBytes (host : Endian) (md : Metadata) (R : Region) (V : Buf)
    (stored : Option (List Nat)) (k : List Nat) : List Nat :=
  if coversChunkB R md.chunkShape k then
    encodeChunk host md.dtype md.chunkShape (coverBuf R V md.chunkShape k)
  else
    match loadBuf host md stored with
    | .ok old => encodeChunk host md.dtype md.chunkShape (overlayBuf R V md.chunkShape k old)
    | .error _ => []

/-- One `write` call in an array handle's history: a requested region, the
claimed value shape, and the values. -/
structure WriteOp where
  rs : List DimSpec
  vshape : List Nat
  V : Buf

/-- The store after one write call of a history (the returned store, also
on a failed call). -/
def applyWrite (host : Endian) (md : Metadata) (st : Store) (op : WriteOp) :
    Store :=
  (write host md st op.rs op.vshape op.V).1

/-- The store after a sequence of write calls, starting from a given
store. -/
def applyWrites (host : Endian) (md : Metadata) (st : Store)
    (ops : List WriteOp) : Store :=
  ops.foldl (applyWrite host md) st

/-- The write call's values are well-typed records on its resolved
region. -/
def opTyped (md : Metadata) (op : WriteOp) : Prop :=
  ∀ dims, resolveDims md.shape op.rs = .ok dims →
    ∀ i, inBoxB i (regionShape (regionOfDims dims)) = true →
      recOkB md.dtype (op.V i) = true

/-- No element of the region `R` is covered by the write call: every cell
of the call's resolved region lies outside `R`. -/
def opAvoids (md : Metadata) (R : Region) (op : WriteOp) : Prop :=
  ∀ dims, resolveDims md.shape op.rs = .ok dims →
    ∀ g, inRegionB (regionOfDims dims) g = true → inRegionB R g = false

/-! ## Lemmas: byte-level scalar codec -/

theorem length_bytesLE (k v : Nat) : (bytesLE k v).length = k := by
  induction k generalizing v with
  | zero => rfl
  | succ k ih => simp [bytesLE, ih]

theorem bytesLE_lt (k v : Nat) : ∀ x ∈ bytesLE k v, x < 256 := by
  induction k generalizing v with
  | zero => simp [bytesLE]
  | succ k ih =>
      intro x hx
      simp only [bytesLE, List.mem_cons] at hx
      rcases hx with h | h
      · subst h; exact Nat.mod_lt _ (by norm_num)
      · exact ih _ _ h

theorem natLE_bytesLE (k v : Nat) (h : v < 256 ^ k) : natLE (bytesLE k v) = v := by
  induction k generalizing v with
  | zero => simp [bytesLE, natLE]; omega
  | succ k ih =>
      have hdiv : v / 256 < 256 ^ k := by
        rw [Nat.div_lt_iff_lt_mul (by norm_num)]
        calc v < 256 ^ (k + 1) := h
        _ = 256 ^ k * 256 := by ring
      simp only [bytesLE, natLE, ih _ hdiv]
      omega

theorem natLE_lt (bs : List Nat) (h : ∀ x ∈ bs, x < 256) :
    natLE bs < 256 ^ bs.length := by
  induction bs with
  | nil => simp [natLE]
  | cons b bs ih =>
      have hb : b < 256 := h b (by simp)
      have ht : natLE bs < 256 ^ bs.length := ih fun x hx => h x (by simp [hx])
      simp only [natLE, List.length_cons, pow_succ]
      calc b + 256 * natLE bs < 256 + 256 * natLE bs := by omega
      _ ≤ 256 * 256 ^ bs.length := by omega
      _ = 256 ^ bs.length * 256 := by ring

theorem length_encodeScalarBytes (e : Endian) (k v : Nat) :
    (encodeScalarBytes e k v).length = k := by
  cases e <;> simp [encodeScalarBytes, length_bytesLE]

theorem encodeScalarBytes_lt (e : Endian) (k v : Nat) :
    ∀ x ∈ encodeScalarBytes e k v, x < 256 := by
  cases e <;> simp only [encodeScalarBytes, List.mem_reverse] <;>
    exact fun x hx => bytesLE_lt k v x hx

theorem decode_encodeScalarBytes (e : Endian) (k v : Nat) (h : v < 256 ^ k) :
    decodeScalarBytes e (encodeScalarBytes e k v) = v := by
  cases e <;>
    simp [decodeScalarBytes, encodeScalarBytes, List.reverse_reverse,
      natLE_bytesLE k v h]

theorem decodeScalarBytes_lt (e : Endian) (bs : List Nat)
    (h : ∀ x ∈ bs, x < 256) : decodeScalarBytes e bs < 256 ^ bs.length := by
  cases e with
  | little => exact natLE_lt bs h
  | big =>
      have := natLE_lt bs.reverse (by simpa using h)
      simpa [decodeScalarBytes] using this

/-! ## Lemmas: buffer splicing -/

theorem length_writeAt (buf bs : List Nat) (off : Nat)
    (h : off + bs.length ≤ buf.length) :
    (writeAt buf off bs).length = buf.length := by
  simp [writeAt, List.length_take, List.length_drop]
  omega

theorem getElem?_writeAt (buf bs : List Nat) (off i : Nat)
    (h : off + bs.length ≤ buf.length) :
    (writeAt buf off bs)[i]? =
      if i < off then buf[i]?
      else if i < off + bs.length then bs[i - off]? else buf[i]? := by
  have htk : (buf.take off).length = off := by
    simp [List.length_take]; omega
  simp only [writeAt, List.getElem?_append, List.length_append, htk]
  by_cases h1 : i < off
  · rw [if_pos (by omega), List.getElem?_take, if_pos h1, if_pos h1]
    rw [if_pos h1]
  · by_cases h2 : i < off + bs.length
    · rw [if_pos (by omega), if_neg h1, if_neg h1, if_pos h2]
    · rw [if_neg (by omega), if_neg h1, if_neg h2, List.getElem?_drop]
      congr 1
      omega

theorem getElem?_sliceAt (buf : List Nat) (off len j : Nat) :
    (sliceAt buf off len)[j]? = if j < len then buf[off + j]? else none := by
  rw [sliceAt, List.getElem?_take, List.getElem?_drop]

theorem length_sliceAt (buf : List Nat) (off len : Nat)
    (h : off + len ≤ buf.length) : (sliceAt buf off len).length = len := by
  simp [sliceAt, List.length_take, List.length_drop]
  omega

theorem offset_le_sizeOf (d : Descriptor) (f : FieldSpec) (hf : f ∈ d.fields) :
    f.offset + f.size ≤ d.sizeOf := by
  have : ∀ (l : List FieldSpec), f ∈ l →
      f.offset + f.size ≤ (l.map (fun g => g.offset + g.size)).foldr max 0 := by
    intro l hl
    induction l with
    | nil => cases hl
    | cons a l ih =>
        rcases List.mem_cons.mp hl with h | h
        · subst h; simp only [List.map_cons, List.foldr]; exact le_max_left _ _
        · simp only [List.map_cons, List.foldr]
          exact le_max_of_le_right (ih h)
  exact this d.fields hf

theorem length_encodeScalar (host : Endian) (f : FieldSpec) (v : Nat) :
    (encodeScalar host f v).length = f.size :=
  length_encodeScalarBytes _ _ _

theorem sliceAt_writeAt_self (buf bs : List Nat) (off : Nat)
    (h : off + bs.length ≤ buf.length) :
    sliceAt (writeAt buf off bs) off bs.length = bs := by
  apply List.ext_getElem?
  intro j
  rw [getElem?_sliceAt]
  by_cases hj : j < bs.length
  · rw [if_pos hj, getElem?_writeAt _ _ _ _ h, if_neg (by omega), if_pos (by omega)]
    congr 1
    omega
  · rw [if_neg hj, eq_comm, List.getElem?_eq_none]
    omega

theorem sliceAt_writeAt_disjoint (buf bs : List Nat) (off len off' : Nat)
    (h : off' + bs.length ≤ buf.length)
    (hd : off' + bs.length ≤ off ∨ off + len ≤ off') :
    sliceAt (writeAt buf off' bs) off len = sliceAt buf off len := by
  apply List.ext_getElem?
  intro j
  rw [getElem?_sliceAt, getElem?_sliceAt]
  by_cases hj : j < len
  · rw [if_pos hj, if_pos hj, getElem?_writeAt _ _ _ _ h]
    rcases hd with hd | hd
    · rw [if_neg (by omega), if_neg (by omega)]
    · rw [if_pos (by omega)]
  · rw [if_neg hj, if_neg hj]

theorem length_encodeFieldsInto (host : Endian) (fvs : List (FieldSpec × Nat))
    (buf : List Nat) (h : ∀ fv ∈ fvs, fv.1.offset + fv.1.size ≤ buf.length) :
    (encodeFieldsInto host buf fvs).length = buf.length := by
  induction fvs generalizing buf with
  | nil => rfl
  | cons fv fvs ih =>
      have hfit : fv.1.offset + fv.1.size ≤ buf.length := h fv (by simp)
      have hw : (writeAt buf fv.1.offset (encodeScalar host fv.1 fv.2)).length
          = buf.length := by
        rw [length_writeAt]
        rw [length_encodeScalar]
        exact hfit
      simp only [encodeFieldsInto, List.foldl_cons]
      rw [show (List.foldl _ _ fvs : List Nat) = encodeFieldsInto host _ fvs from rfl, ih]
      · exact hw
      · intro fv' hfv'
        rw [hw]
        exact h fv' (by simp [hfv'])

theorem sliceAt_encodeFieldsInto_frame (host : Endian)
    (fvs : List (FieldSpec × Nat)) (buf : List Nat) (off len : Nat)
    (hfit : ∀ fv ∈ fvs, fv.1.offset + fv.1.size ≤ buf.length)
    (hd : ∀ fv ∈ fvs, fv.1.offset + fv.1.size ≤ off ∨ off + len ≤ fv.1.offset) :
    sliceAt (encodeFieldsInto host buf fvs) off len = sliceAt buf off len := by
  induction fvs generalizing buf with
  | nil => rfl
  | cons fv fvs ih =>
      have hfit0 : fv.1.offset + fv.1.size ≤ buf.length := hfit fv (by simp)
      have hlen0 : fv.1.offset + (encodeScalar host fv.1 fv.2).length ≤ buf.length := by
        rw [length_encodeScalar]; exact hfit0
      have hw : (writeAt buf fv.1.offset (encodeScalar host fv.1 fv.2)).length
          = buf.length := by rw [length_writeAt _ _ _ hlen0]
      simp only [encodeFieldsInto, List.foldl_cons]
      rw [show (List.foldl _ _ fvs : List Nat) = encodeFieldsInto host _ fvs from rfl]
      rw [ih _ (fun fv' h' => by rw [hw]; exact hfit fv' (by simp [h']))
            (fun fv' h' => hd fv' (by simp [h']))]
      apply sliceAt_writeAt_disjoint _ _ _ _ _ hlen0
      have := hd fv (by simp)
      rw [length_encodeScalar]
      exact this

theorem disjointB_iff (f g : FieldSpec) :
    f.disjointB g = true ↔
      (f.offset + f.size ≤ g.offset ∨ g.offset + g.size ≤ f.offset) := by
  simp [FieldSpec.disjointB]

theorem descOkB_pairwise (d : Descriptor) (h : descOkB d = true) :
    d.fields.Pairwise fun f g => f.disjointB g = true := by
  simp only [descOkB, Bool.and_eq_true, decide_eq_true_eq] at h
  exact h.2

theorem sliceAt_encodeFieldsInto_at (host : Endian) (buf : List Nat)
    (l1 l2 : List (FieldSpec × Nat)) (f : FieldSpec) (x : Nat)
    (hfit : ∀ fv ∈ l1 ++ (f, x) :: l2, fv.1.offset + fv.1.size ≤ buf.length)
    (hd1 : ∀ fv ∈ l1, fv.1.disjointB f = true)
    (hd2 : ∀ fv ∈ l2, f.disjointB fv.1 = true) :
    sliceAt (encodeFieldsInto host buf (l1 ++ (f, x) :: l2)) f.offset f.size =
      encodeScalar host f x := by
  induction l1 generalizing buf with
  | nil =>
      have hfit0 : f.offset + f.size ≤ buf.length := hfit (f, x) (by simp)
      have hlen0 : f.offset + (encodeScalar host f x).length ≤ buf.length := by
        rw [length_encodeScalar]; exact hfit0
      have hw : (writeAt buf f.offset (encodeScalar host f x)).length = buf.length := by
        rw [length_writeAt _ _ _ hlen0]
      simp only [List.nil_append, encodeFieldsInto, List.foldl_cons]
      rw [show (List.foldl _ _ l2 : List Nat) = encodeFieldsInto host _ l2 from rfl]
      rw [sliceAt_encodeFieldsInto_frame host l2 _ f.offset f.size
            (fun fv h' => by rw [hw]; exact hfit fv (by simp [h']))
            (fun fv h' => by
              have := (disjointB_iff f fv.1).mp (hd2 fv h')
              omega)]
      have := sliceAt_writeAt_self buf (encodeScalar host f x) f.offset hlen0
      rwa [length_encodeScalar] at this
  | cons fv l1 ih =>
      have hfit0 : fv.1.offset + fv.1.size ≤ buf.length := hfit fv (by simp)
      have hlen0 : fv.1.offset + (encodeScalar host fv.1 fv.2).length ≤ buf.length := by
        rw [length_encodeScalar]; exact hfit0
      have hw : (writeAt buf fv.1.offset (encodeScalar host fv.1 fv.2)).length
          = buf.length := by rw [length_writeAt _ _ _ hlen0]
      simp only [List.cons_append, encodeFieldsInto, List.foldl_cons]
      rw [show (List.foldl _ _ (l1 ++ (f, x) :: l2) : List Nat)
            = encodeFieldsInto host _ (l1 ++ (f, x) :: l2) from rfl]
      exact ih _ (fun fv' h' => by rw [hw]; exact hfit fv' (by simp [List.mem_cons.mpr (.inr h')]))
        (fun fv' h' => hd1 fv' (by simp [h']))

theorem length_encodeRecord (host : Endian) (d : Descriptor) (v : List Nat) :
    (encodeRecord host d v).length = d.sizeOf := by
  rw [encodeRecord, length_encodeFieldsInto, List.length_replicate]
  intro fv hfv
  rw [List.length_replicate]
  exact offset_le_sizeOf d fv.1 (List.of_mem_zip hfv).1

theorem take_zipFV (a : List FieldSpec) (b : List Nat) (n : Nat) :
    (a.zip b).take n = (a.take n).zip (b.take n) :=
  List.take_zipWith

theorem drop_zipFV (a : List FieldSpec) (b : List Nat) (n : Nat) :
    (a.zip b).drop n = (a.drop n).zip (b.drop n) :=
  List.drop_zipWith

theorem decodeRecord_encodeRecord_field (host : Endian) (d : Descriptor)
    (v : List Nat) (i : Nat) (hok : descOkB d = true)
    (hi : i < d.fields.length) (hiv : i < v.length)
    (hr : v[i] < 256 ^ (d.fields[i]).size) :
    (decodeRecord host d (encodeRecord host d v))[i]? = some v[i] := by
  have hzlen : i < (d.fields.zip v).length := by
    rw [List.length_zip]; omega
  -- decompose the zip list around position i
  have hsplit : d.fields.zip v =
      (d.fields.zip v).take i ++ (d.fields[i], v[i]) :: (d.fields.zip v).drop (i + 1) := by
    rw [← List.getElem_zip (h := hzlen), ← List.drop_eq_getElem_cons hzlen,
      List.take_append_drop]
  -- decompose the field list around position i
  have hfields : d.fields =
      d.fields.take i ++ d.fields[i] :: d.fields.drop (i + 1) := by
    rw [← List.drop_eq_getElem_cons hi, List.take_append_drop]
  have hpw := descOkB_pairwise d hok
  rw [hfields, List.pairwise_append] at hpw
  obtain ⟨-, hpw2, hcross⟩ := hpw
  have hdrop2 := (List.pairwise_cons.mp hpw2).1
  -- membership transfers through take/drop of the zip
  have hmem1 : ∀ fv ∈ (d.fields.zip v).take i, fv.1 ∈ d.fields.take i := by
    intro fv hfv
    rw [take_zipFV] at hfv
    exact (List.of_mem_zip (a := fv.1) (b := fv.2) (by simpa using hfv)).1
  have hmem2 : ∀ fv ∈ (d.fields.zip v).drop (i + 1),
      fv.1 ∈ d.fields.drop (i + 1) := by
    intro fv hfv
    rw [drop_zipFV] at hfv
    exact (List.of_mem_zip (a := fv.1) (b := fv.2) (by simpa using hfv)).1
  have hmemall : ∀ fv ∈ d.fields.zip v, fv.1 ∈ d.fields := by
    intro fv hfv
    exact (List.of_mem_zip (a := fv.1) (b := fv.2) (by simpa using hfv)).1
  have hfget : d.fields[i]? = some (d.fields[i]) := List.getElem?_eq_getElem hi
  rw [decodeRecord, List.getElem?_map, hfget, Option.map_some']
  congr 1
  have hslice : sliceAt (encodeRecord host d v) (d.fields[i]).offset
      (d.fields[i]).size = encodeScalar host (d.fields[i]) v[i] := by
    rw [encodeRecord, hsplit]
    apply sliceAt_encodeFieldsInto_at
    · intro fv hfv
      rw [List.length_replicate]
      exact offset_le_sizeOf d fv.1 (hmemall fv (by rw [hsplit]; exact hfv))
    · intro fv hfv
      exact hcross fv.1 (hmem1 fv hfv) _ (List.mem_cons_self _ _)
    · intro fv hfv
      exact hdrop2 fv.1 (hmem2 fv hfv)
  rw [hslice, encodeScalar, decodeScalar, decode_encodeScalarBytes]
  exact hr

theorem recOkB_length (d : Descriptor) (v : List Nat) (h : recOkB d v = true) :
    v.length = d.fields.length := by
  simp only [recOkB, Bool.and_eq_true, beq_iff_eq] at h
  exact h.1

theorem recOkB_range (d : Descriptor) (v : List Nat) (h : recOkB d v = true)
    (i : Nat) (hi : i < d.fields.length) (hiv : i < v.length) :
    v.get ⟨i, hiv⟩ < 256 ^ (d.fields.get ⟨i, hi⟩).size := by
  simp only [recOkB, Bool.and_eq_true, beq_iff_eq, List.all_eq_true] at h
  have hzlen : i < (d.fields.zip v).length := by
    rw [List.length_zip]; omega
  have := h.2 ((d.fields.zip v).get ⟨i, hzlen⟩) (List.get_mem _ _ _)
  simpa [List.get_eq_getElem, List.getElem_zip, decide_eq_true_eq] using this

theorem decodeRecord_encodeRecord (host : Endian) (d : Descriptor)
    (v : List Nat) (hok : descOkB d = true) (hrec : recOkB d v = true) :
    decodeRecord host d (encodeRecord host d v) = v := by
  have hlen : v.length = d.fields.length := recOkB_length d v hrec
  apply List.ext_getElem?
  intro i
  by_cases hi : i < d.fields.length
  · rw [decodeRecord_encodeRecord_field host d v i hok hi (by omega)
        (recOkB_range d v hrec i hi (by omega))]
    rw [List.getElem?_eq_getElem (by omega : i < v.length)]
  · rw [List.getElem?_eq_none, List.getElem?_eq_none]
    · omega
    · rw [decodeRecord, List.length_map]; omega

theorem mem_writeAt (buf bs : List Nat) (off : Nat) (x : Nat)
    (hx : x ∈ writeAt buf off bs) : x ∈ buf ∨ x ∈ bs := by
  simp only [writeAt, List.mem_append] at hx
  rcases hx with (h | h) | h
  · exact .inl (List.mem_of_mem_take h)
  · exact .inr h
  · exact .inl (List.mem_of_mem_drop h)

theorem encodeFieldsInto_lt (host : Endian) (fvs : List (FieldSpec × Nat))
    (buf : List Nat) (hbuf : ∀ x ∈ buf, x < 256) :
    ∀ x ∈ encodeFieldsInto host buf fvs, x < 256 := by
  induction fvs generalizing buf with
  | nil => exact hbuf
  | cons fv fvs ih =>
      intro x hx
      refine ih _ ?_ x hx
      intro y hy
      rcases mem_writeAt _ _ _ _ hy with h | h
      · exact hbuf y h
      · exact encodeScalarBytes_lt _ _ _ y h

theorem encodeRecord_lt (host : Endian) (d : Descriptor) (v : List Nat) :
    ∀ x ∈ encodeRecord host d v, x < 256 := by
  apply encodeFieldsInto_lt
  intro x hx
  rw [List.eq_of_mem_replicate hx]
  norm_num

theorem length_decodeRecord (host : Endian) (d : Descriptor) (buf : List Nat) :
    (decodeRecord host d buf).length = d.fields.length := by
  rw [decodeRecord, List.length_map]

theorem recOkB_decodeRecord (host : Endian) (d : Descriptor) (buf : List Nat)
    (hbuf : ∀ x ∈ buf, x < 256) : recOkB d (decodeRecord host d buf) = true := by
  simp only [recOkB, Bool.and_eq_true, beq_iff_eq, List.all_eq_true]
  constructor
  · exact length_decodeRecord host d buf
  · intro p hp
    have hlen : (decodeRecord host d buf).length = d.fields.length :=
      length_decodeRecord host d buf
    rw [List.mem_iff_getElem] at hp
    obtain ⟨i, hilt, hip⟩ := hp
    have hi : i < d.fields.length := by
      rw [List.length_zip, hlen] at hilt; omega
    have hi2 : i < (decodeRecord host d buf).length := by omega
    rw [List.getElem_zip] at hip
    have h1 : (d.fields.zip (decodeRecord host d buf))[i].1 = d.fields[i] := by
      rw [List.getElem_zip]
    have h2 : (decodeRecord host d buf)[i] =
        decodeScalar host (d.fields[i]) (sliceAt buf (d.fields[i]).offset (d.fields[i]).size) := by
      have hmap : decodeRecord host d buf =
          d.fields.map fun f => decodeScalar host f (sliceAt buf f.offset f.size) := rfl
      simp only [hmap, List.getElem_map]
    subst hip
    simp only [List.getElem_zip, decide_eq_true_eq]
    show (decodeRecord host d buf)[i] < 256 ^ (d.fields[i]).size
    rw [h2]
    have hslt : ∀ x ∈ sliceAt buf (d.fields[i]).offset (d.fields[i]).size, x < 256 := by
      intro x hx
      exact hbuf x (List.mem_of_mem_drop (List.mem_of_mem_take (by simpa [sliceAt] using hx)))
    have hlen2 : (sliceAt buf (d.fields[i]).offset (d.fields[i]).size).length
        ≤ (d.fields[i]).size := by
      simp [sliceAt, List.length_take]
    calc decodeScalar host (d.fields[i]) _
        < 256 ^ (sliceAt buf (d.fields[i]).offset (d.fields[i]).size).length :=
          decodeScalarBytes_lt _ _ hslt
      _ ≤ 256 ^ (d.fields[i]).size := Nat.pow_le_pow_right (by norm_num) hlen2

/-! ## Lemmas: pointwise index predicates -/

theorem zip_all_iff (a b : List Nat) (p : Nat → Nat → Bool) :
    ((a.zip b).all fun q => p q.1 q.2) = true ↔
      ∀ i (h1 : i < a.length) (h2 : i < b.length),
        p (a.get ⟨i, h1⟩) (b.get ⟨i, h2⟩) = true := by
  rw [List.all_eq_true]
  constructor
  · intro h i h1 h2
    have hz : i < (a.zip b).length := by rw [List.length_zip]; omega
    have := h ((a.zip b).get ⟨i, hz⟩) (List.get_mem _ _ _)
    simpa [List.get_eq_getElem, List.getElem_zip] using this
  · intro h q hq
    rw [List.mem_iff_getElem] at hq
    obtain ⟨i, hi, hiq⟩ := hq
    have h1 : i < a.length := by rw [List.length_zip] at hi; omega
    have h2 : i < b.length := by rw [List.length_zip] at hi; omega
    subst hiq
    simpa [List.getElem_zip] using h i h1 h2

theorem pwLtB_iff (a b : List Nat) :
    pwLtB a b = true ↔ a.length = b.length ∧
      ∀ i (h1 : i < a.length) (h2 : i < b.length), a.get ⟨i, h1⟩ < b.get ⟨i, h2⟩ := by
  rw [pwLtB, Bool.and_eq_true, beq_iff_eq,
    zip_all_iff a b (fun x y => decide (x < y))]
  simp only [decide_eq_true_eq]

theorem pwLeB_iff (a b : List Nat) :
    pwLeB a b = true ↔ a.length = b.length ∧
      ∀ i (h1 : i < a.length) (h2 : i < b.length), a.get ⟨i, h1⟩ ≤ b.get ⟨i, h2⟩ := by
  rw [pwLeB, Bool.and_eq_true, beq_iff_eq,
    zip_all_iff a b (fun x y => decide (x ≤ y))]
  simp only [decide_eq_true_eq]

theorem pwLtB_cons (i n : Nat) (tl s : List Nat) :
    pwLtB (i :: tl) (n :: s) = true ↔ i < n ∧ pwLtB tl s = true := by
  rw [pwLtB_iff, pwLtB_iff]
  constructor
  · intro ⟨hl, h⟩
    refine ⟨h 0 (by simp) (by simp), by simp at hl; exact hl, ?_⟩
    intro j h1 h2
    exact h (j + 1) (by simpa using h1) (by simpa using h2)
  · intro ⟨hin, hl, h⟩
    refine ⟨by simpa using hl, ?_⟩
    intro j h1 h2
    cases j with
    | zero => simpa using hin
    | succ j => exact h j (by simpa using h1) (by simpa using h2)

/-! ## Lemmas: row-major enumeration -/

theorem flatMap_length_uniform {α β : Type} (l : List α) (f : α → List β) (m : Nat)
    (h : ∀ a ∈ l, (f a).length = m) : (l.flatMap f).length = l.length * m := by
  induction l with
  | nil => simp
  | cons a l ih =>
      simp only [List.flatMap_cons, List.length_append, List.length_cons]
      rw [h a (by simp), ih fun a' h' => h a' (by simp [h'])]
      ring

theorem length_allIdx (s : List Nat) : (allIdx s).length = prodL s := by
  induction s with
  | nil => rfl
  | cons n s ih =>
      rw [allIdx, flatMap_length_uniform _ _ (allIdx s).length
        (fun a _ => by rw [List.length_map]), List.length_range, ih]
      rfl

theorem flattenIdx_lt (s ix : List Nat) (h : inBoxB ix s = true) :
    flattenIdx s ix < prodL s := by
  induction s generalizing ix with
  | nil =>
      rw [inBoxB, pwLtB_iff] at h
      have : ix = [] := List.eq_nil_of_length_eq_zero (by simpa using h.1)
      subst this
      simp [flattenIdx, prodL]
  | cons n s ih =>
      match ix with
      | [] =>
          rw [inBoxB, pwLtB_iff] at h
          simp at h
      | i :: tl =>
          rw [inBoxB, pwLtB_cons] at h
          have htl := ih tl h.2
          have hi := h.1
          show i * prodL s + flattenIdx s tl < prodL (n :: s)
          have h1 : i * prodL s + flattenIdx s tl < (i + 1) * prodL s := by
            have := htl
            calc i * prodL s + flattenIdx s tl < i * prodL s + prodL s := by omega
            _ = (i + 1) * prodL s := by ring
          calc i * prodL s + flattenIdx s tl < (i + 1) * prodL s := h1
          _ ≤ n * prodL s := Nat.mul_le_mul_right _ (by omega)
          _ = prodL (n :: s) := rfl

theorem getElem?_flatMap_uniform {α β : Type} (l : List α) (f : α → List β)
    (m : Nat) (h : ∀ a ∈ l, (f a).length = m) (k j : Nat) (hj : j < m)
    (hk : k < l.length) :
    (l.flatMap f)[k * m + j]? = (f (l.get ⟨k, hk⟩))[j]? := by
  induction l generalizing k with
  | nil => simp at hk
  | cons a l ih =>
      have ha : (f a).length = m := h a (by simp)
      rw [List.flatMap_cons, List.getElem?_append]
      cases k with
      | zero =>
          rw [if_pos (by omega)]
          simp
      | succ k =>
          have hmul : (k + 1) * m = k * m + m := by ring
          have hge : ¬ ((k + 1) * m + j < (f a).length) := by rw [ha]; omega
          rw [if_neg hge, ha]
          have harith : (k + 1) * m + j - m = k * m + j := by omega
          rw [harith, ih (fun a' h' => h a' (by simp [h'])) k (by simpa using hk)]
          rfl

theorem mem_allIdx (s ix : List Nat) : ix ∈ allIdx s ↔ inBoxB ix s = true := by
  induction s generalizing ix with
  | nil =>
      cases ix with
      | nil => simp [allIdx, inBoxB, pwLtB]
      | cons i tl => simp [allIdx, inBoxB, pwLtB]
  | cons n s ih =>
      cases ix with
      | nil =>
          simp only [allIdx, List.mem_flatMap, List.mem_map, List.mem_range]
          constructor
          · rintro ⟨i, -, tl, -, h⟩
            cases h
          · intro h
            rw [inBoxB, pwLtB_iff] at h
            simp at h
      | cons i tl =>
          simp only [allIdx, List.mem_flatMap, List.mem_map, List.mem_range]
          rw [inBoxB, pwLtB_cons]
          constructor
          · rintro ⟨i', hi', tl', htl', heq⟩
            obtain ⟨rfl, rfl⟩ : i' = i ∧ tl' = tl := by
              injection heq with h1 h2
              exact ⟨h1, h2⟩
            exact ⟨hi', (ih _).mp htl'⟩
          · intro ⟨hi, htl⟩
            exact ⟨i, hi, tl, (ih tl).mpr htl, rfl⟩

theorem getElem?_allIdx (s ix : List Nat) (h : inBoxB ix s = true) :
    (allIdx s)[flattenIdx s ix]? = some ix := by
  induction s generalizing ix with
  | nil =>
      have : ix = [] := by
        rw [inBoxB, pwLtB_iff] at h
        exact List.eq_nil_of_length_eq_zero (by simpa using h.1)
      subst this
      rfl
  | cons n s ih =>
      match ix with
      | [] =>
          rw [inBoxB, pwLtB_iff] at h
          simp at h
      | i :: tl =>
          rw [inBoxB, pwLtB_cons] at h
          have htl := h.2
          have hflat := flattenIdx_lt s tl htl
          show (allIdx (n :: s))[i * prodL s + flattenIdx s tl]? = some (i :: tl)
          rw [allIdx]
          rw [getElem?_flatMap_uniform (List.range n) _ (prodL s)
            (fun a _ => by rw [List.length_map, length_allIdx])
            i (flattenIdx s tl) hflat (by simpa using h.1)]
          rw [List.getElem?_map, List.get_eq_getElem, List.getElem_range, ih tl htl]
          rfl

theorem nodup_allIdx (s : List Nat) : (allIdx s).Nodup := by
  induction s with
  | nil => simp [allIdx]
  | cons n s ih =>
      rw [allIdx, List.nodup_flatMap]
      constructor
      · intro i _
        exact ih.map fun a b h => by injection h
      · have hr : (List.range n).Pairwise (· ≠ ·) := List.nodup_range n
        apply hr.imp
        intro i j hij
        rw [Function.onFun, List.disjoint_left]
        rintro a ha hb
        rw [List.mem_map] at ha hb
        obtain ⟨tl1, -, rfl⟩ := ha
        obtain ⟨tl2, -, heq⟩ := hb
        injection heq with h1 h2
        exact hij h1.symm

/-! ## Lemmas: Chunk Codec -/

theorem length_encodeChunk (host : Endian) (d : Descriptor) (cs : List Nat)
    (buf : Buf) : (encodeChunk host d cs buf).length = prodL cs * d.sizeOf := by
  rw [encodeChunk, flatMap_length_uniform _ _ d.sizeOf
    (fun a _ => length_encodeRecord host d (buf a)), length_allIdx]

theorem encodeChunk_lt (host : Endian) (d : Descriptor) (cs : List Nat)
    (buf : Buf) : ∀ x ∈ encodeChunk host d cs buf, x < 256 := by
  intro x hx
  rw [encodeChunk, List.mem_flatMap] at hx
  obtain ⟨ix, -, hx⟩ := hx
  exact encodeRecord_lt host d (buf ix) x hx

theorem sliceAt_flatMap_uniform {α : Type} (l : List α) (f : α → List Nat)
    (m : Nat) (h : ∀ a ∈ l, (f a).length = m) (k : Nat) (hk : k < l.length) :
    sliceAt (l.flatMap f) (k * m) m = f (l.get ⟨k, hk⟩) := by
  apply List.ext_getElem?
  intro j
  rw [getElem?_sliceAt]
  by_cases hj : j < m
  · rw [if_pos hj, getElem?_flatMap_uniform l f m h k j hj hk]
  · rw [if_neg hj, eq_comm, List.getElem?_eq_none]
    rw [h _ (List.get_mem _ _ _)]
    omega

theorem decodeChunk_encodeChunk (host : Endian) (d : Descriptor) (cs : List Nat)
    (buf : Buf) (ix : List Nat) (h : inBoxB ix cs = true) :
    decodeChunk host d cs (encodeChunk host d cs buf) ix =
      decodeRecord host d (encodeRecord host d (buf ix)) := by
  have hj : flattenIdx cs ix < (allIdx cs).length := by
    rw [length_allIdx]
    exact flattenIdx_lt _ _ h
  have hget : (allIdx cs).get ⟨flattenIdx cs ix, hj⟩ = ix := by
    have h2 := getElem?_allIdx cs ix h
    rw [List.getElem?_eq_getElem hj] at h2
    exact Option.some.inj h2
  show decodeRecord host d
      (sliceAt (encodeChunk host d cs buf) (flattenIdx cs ix * d.sizeOf) d.sizeOf) = _
  rw [encodeChunk, sliceAt_flatMap_uniform (allIdx cs) _ d.sizeOf
    (fun a _ => length_encodeRecord host d (buf a)) _ hj, hget]

/-- Round-trip of the Chunk Codec at any in-box index, for well-typed
records. -/
theorem decodeChunk_encodeChunk_rec (host : Endian) (d : Descriptor)
    (cs : List Nat) (buf : Buf) (ix : List Nat) (h : inBoxB ix cs = true)
    (hok : descOkB d = true) (hrec : recOkB d (buf ix) = true) :
    decodeChunk host d cs (encodeChunk host d cs buf) ix = buf ix := by
  rw [decodeChunk_encodeChunk host d cs buf ix h,
    decodeRecord_encodeRecord host d (buf ix) hok hrec]

/-! ## Lemmas: chunk-key geometry -/

theorem length_zipWithN (f : Nat → Nat → Nat) (a b : List Nat) :
    (List.zipWith f a b).length = min a.length b.length := by
  rw [List.length_zipWith]

theorem mem_boxList (lo hi k : List Nat) (hlen : hi.length = lo.length) :
    k ∈ boxList lo hi ↔ pwLeB lo k = true ∧ pwLtB k hi = true := by
  rw [boxList, List.mem_map]
  constructor
  · rintro ⟨e, he, rfl⟩
    rw [mem_allIdx] at he
    rw [inBoxB, pwLtB_iff] at he
    obtain ⟨helen, he⟩ := he
    rw [length_zipWithN] at helen
    have helen' : e.length = lo.length := by omega
    have hklen : (List.zipWith (· + ·) lo e).length = lo.length := by
      rw [length_zipWithN]; omega
    constructor
    · rw [pwLeB_iff]
      refine ⟨by omega, ?_⟩
      intro i h1 h2
      simp only [List.get_eq_getElem, List.getElem_zipWith]
      omega
    · rw [pwLtB_iff]
      refine ⟨by omega, ?_⟩
      intro i h1 h2
      have hi1 : i < e.length := by omega
      have hi2 : i < (List.zipWith (fun a b => b - a) lo hi).length := by
        rw [length_zipWithN]; omega
      have := he i hi1 hi2
      simp only [List.get_eq_getElem, List.getElem_zipWith] at this ⊢
      omega
  · intro ⟨hle, hlt⟩
    rw [pwLeB_iff] at hle
    rw [pwLtB_iff] at hlt
    obtain ⟨hklen, hle⟩ := hle
    obtain ⟨hklen2, hlt⟩ := hlt
    refine ⟨List.zipWith (fun a b => b - a) lo k, ?_, ?_⟩
    · rw [mem_allIdx, inBoxB, pwLtB_iff]
      refine ⟨by rw [length_zipWithN, length_zipWithN]; omega, ?_⟩
      intro i h1 h2
      have hilo : i < lo.length := by rw [length_zipWithN] at h1; omega
      have hik : i < k.length := by omega
      have hihi : i < hi.length := by omega
      have ha := hle i hilo hik
      have hb := hlt i hik hihi
      simp only [List.get_eq_getElem, List.getElem_zipWith] at ha hb ⊢
      omega
    · apply List.ext_get
      · rw [length_zipWithN, length_zipWithN]; omega
      · intro i h1 h2
        have hilo : i < lo.length := by rw [length_zipWithN, length_zipWithN] at h1; omega
        have hik : i < k.length := by omega
        have ha := hle i hilo hik
        simp only [List.get_eq_getElem, List.getElem_zipWith] at ha ⊢
        omega

theorem nodup_boxList (lo hi : List Nat) : (boxList lo hi).Nodup := by
  rw [boxList]
  apply List.Nodup.map_on ?_ (nodup_allIdx _)
  intro e1 he1 e2 he2 h
  rw [mem_allIdx, inBoxB, pwLtB_iff] at he1 he2
  have hlen1 := he1.1
  have hlen2 := he2.1
  have hs : (List.zipWith (fun a b => b - a) lo hi).length ≤ lo.length := by
    rw [length_zipWithN]; omega
  apply List.ext_get (by omega)
  intro i h1 h2
  have hzl : i < (List.zipWith (· + ·) lo e1).length := by
    rw [length_zipWithN]; omega
  have hzl2 : i < (List.zipWith (· + ·) lo e2).length := by
    rw [length_zipWithN]; omega
  have := List.get_of_eq h ⟨i, hzl⟩
  simp only [List.get_eq_getElem, List.getElem_zipWith] at this ⊢
  omega

theorem lt_div_mul_add (g c : Nat) (hc : 0 < c) : g < g / c * c + c := by
  have h1 := Nat.div_add_mod g c
  have h2 := Nat.mod_lt g hc
  rw [Nat.mul_comm] at h1
  omega

theorem div_lt_ceilDiv (g stop c : Nat) (hc : 0 < c) (h : g < stop) :
    g / c < ceilDiv stop c := by
  rw [ceilDiv]
  have h2 : (g + c) / c ≤ (stop + c - 1) / c := Nat.div_le_div_right (by omega)
  rw [Nat.add_div_right g hc] at h2
  omega

theorem inChunk_inBox (cs g : List Nat) (hlen : g.length = cs.length)
    (hcs : ∀ c ∈ cs, 0 < c) : inBoxB (inChunkOf cs g) cs = true := by
  rw [inBoxB, pwLtB_iff]
  refine ⟨by rw [inChunkOf, length_zipWithN]; omega, ?_⟩
  intro i h1 h2
  rw [inChunkOf, length_zipWithN] at h1
  simp only [List.get_eq_getElem, inChunkOf, List.getElem_zipWith]
  exact Nat.mod_lt _ (hcs _ (List.getElem_mem h2))

theorem origin_key_add (cs g : List Nat) (hlen : g.length = cs.length) :
    List.zipWith (· + ·) (chunkOrigin cs (chunkKeyOf cs g)) (inChunkOf cs g) = g := by
  apply List.ext_get
  · rw [length_zipWithN, chunkOrigin, chunkKeyOf, inChunkOf,
      length_zipWithN, length_zipWithN, length_zipWithN]
    omega
  · intro i h1 h2
    have hi : i < cs.length := by
      rw [length_zipWithN, chunkOrigin, chunkKeyOf, inChunkOf,
        length_zipWithN, length_zipWithN, length_zipWithN] at h1
      omega
    simp only [List.get_eq_getElem, chunkOrigin, chunkKeyOf, inChunkOf,
      List.getElem_zipWith]
    have := Nat.div_add_mod (g.get ⟨i, h2⟩) (cs.get ⟨i, hi⟩)
    rw [Nat.mul_comm] at this
    simpa using this

theorem chunkKeyOf_length (cs g : List Nat) :
    (chunkKeyOf cs g).length = min g.length cs.length := by
  rw [chunkKeyOf, length_zipWithN]

theorem mem_chunkKeysOf_iff (R : Region) (cs k : List Nat)
    (h1 : R.start.length = cs.length) (h2 : R.stop.length = cs.length) :
    k ∈ chunkKeysOf R cs ↔
      pwLeB (List.zipWith (· / ·) R.start cs) k = true ∧
        pwLtB k (List.zipWith ceilDiv R.stop cs) = true := by
  rw [chunkKeysOf, mem_boxList]
  rw [length_zipWithN, length_zipWithN]
  omega

theorem chunkKeyOf_mem_chunkKeysOf (R : Region) (cs g : List Nat)
    (hcs : ∀ c ∈ cs, 0 < c)
    (h1 : R.start.length = cs.length) (h2 : R.stop.length = cs.length)
    (hg : inRegionB R g = true) : chunkKeyOf cs g ∈ chunkKeysOf R cs := by
  rw [inRegionB, Bool.and_eq_true, pwLeB_iff, pwLtB_iff] at hg
  obtain ⟨⟨hglen, hgle⟩, hglen2, hglt⟩ := hg
  rw [mem_chunkKeysOf_iff R cs _ h1 h2]
  constructor
  · rw [pwLeB_iff]
    refine ⟨by simp only [length_zipWithN, chunkKeyOf]; omega, ?_⟩
    intro i hi1 hi2
    have hic : i < cs.length := by rw [length_zipWithN] at hi1; omega
    have hig : i < g.length := by rw [chunkKeyOf, length_zipWithN] at hi2; omega
    have his : i < R.start.length := by omega
    have ha := hgle i his hig
    simp only [List.get_eq_getElem, List.getElem_zipWith, chunkKeyOf] at ha ⊢
    exact Nat.div_le_div_right ha
  · rw [pwLtB_iff]
    refine ⟨by simp only [length_zipWithN, chunkKeyOf]; omega, ?_⟩
    intro i hi1 hi2
    have hic : i < cs.length := by rw [chunkKeyOf, length_zipWithN] at hi1; omega
    have hig : i < g.length := by omega
    have hit : i < R.stop.length := by omega
    have ha := hglt i hig hit
    simp only [List.get_eq_getElem, List.getElem_zipWith, chunkKeyOf] at ha ⊢
    apply div_lt_ceilDiv
    · exact hcs _ (List.getElem_mem hic)
    · exact ha

theorem covers_inRegion (R : Region) (cs k g : List Nat)
    (hcs : ∀ c ∈ cs, 0 < c) (hk : k.length = cs.length)
    (h1 : R.start.length = cs.length) (h2 : R.stop.length = cs.length)
    (hgl : g.length = cs.length)
    (hcov : coversChunkB R cs k = true) (hgk : chunkKeyOf cs g = k) :
    inRegionB R g = true := by
  rw [coversChunkB, Bool.and_eq_true, pwLeB_iff, pwLeB_iff] at hcov
  obtain ⟨⟨hl1, hle1⟩, hl2, hle2⟩ := hcov
  rw [inRegionB, Bool.and_eq_true, pwLeB_iff, pwLtB_iff]
  refine ⟨⟨by omega, ?_⟩, by omega, ?_⟩
  · intro i hi1 hi2
    have hic : i < cs.length := by omega
    have hik : i < k.length := by omega
    have hio : i < (chunkOrigin cs k).length := by
      rw [chunkOrigin, length_zipWithN]; omega
    have ha := hle1 i hi1 hio
    have hkey : i < (chunkKeyOf cs g).length := by
      rw [chunkKeyOf, length_zipWithN]; omega
    have hkg := List.get_of_eq hgk ⟨i, hkey⟩
    simp only [List.get_eq_getElem, chunkOrigin, chunkKeyOf,
      List.getElem_zipWith, Fin.coe_cast] at ha hkg
    have hb : k.get ⟨i, hik⟩ * cs.get ⟨i, hic⟩ ≤ g.get ⟨i, hi2⟩ := by
      simp only [List.get_eq_getElem]
      rw [← hkg]
      exact Nat.div_mul_le_self _ _
    simp only [List.get_eq_getElem] at hb ⊢
    omega
  · intro i hi1 hi2
    have hic : i < cs.length := by omega
    have hik : i < k.length := by omega
    have hio : i < (List.zipWith (· + ·) (chunkOrigin cs k) cs).length := by
      rw [length_zipWithN, chunkOrigin, length_zipWithN]; omega
    have ha := hle2 i hio hi2
    have hkey : i < (chunkKeyOf cs g).length := by
      rw [chunkKeyOf, length_zipWithN]; omega
    have hkg := List.get_of_eq hgk ⟨i, hkey⟩
    simp only [List.get_eq_getElem, chunkOrigin, chunkKeyOf,
      List.getElem_zipWith, Fin.coe_cast] at ha hkg
    have hb : g.get ⟨i, hi1⟩ <
        k.get ⟨i, hik⟩ * cs.get ⟨i, hic⟩ + cs.get ⟨i, hic⟩ := by
      simp only [List.get_eq_getElem]
      rw [← hkg]
      exact lt_div_mul_add _ _ (hcs _ (List.getElem_mem hic))
    simp only [List.get_eq_getElem] at hb ⊢
    omega

/-! ## Lemmas: writing chunks -/

theorem writeOneChunk_ok (host : Endian) (md : Metadata) (R : Region) (V : Buf)
    (st : Store) (k : List Nat) (hfail : st.failKeys k = false)
    (hwf : ∀ b, st.data k = some b → b.length = chunkByteLen md) :
    writeOneChunk host md R V st k =
      ({ st with data := fun k' =>
          if k' = k then some (chunkNewBytes host md R V (st.data k) k)
          else st.data k' }, none) := by
  rw [writeOneChunk, chunkNewBytes]
  by_cases hcov : coversChunkB R md.chunkShape k = true
  · simp [hcov, putChunk, hfail]
  · simp only [Bool.not_eq_true] at hcov
    simp only [hcov, Bool.false_eq_true, if_false]
    cases hst : st.data k with
    | none => simp [loadBuf, putChunk, hfail]
    | some bytes =>
        have hlen := hwf bytes hst
        simp [loadBuf, hlen, putChunk, hfail]

theorem writeChunks_ok (host : Endian) (md : Metadata) (R : Region) (V : Buf)
    (ks : List (List Nat)) (st : Store) (hnd : ks.Nodup)
    (hfail : ∀ k ∈ ks, st.failKeys k = false)
    (hwf : ∀ k ∈ ks, ∀ b, st.data k = some b → b.length = chunkByteLen md) :
    (writeChunks host md R V st ks).2 = none ∧
    (writeChunks host md R V st ks).1.failKeys = st.failKeys ∧
    ∀ k', (writeChunks host md R V st ks).1.data k' =
      if k' ∈ ks then some (chunkNewBytes host md R V (st.data k') k')
      else st.data k' := by
  induction ks generalizing st with
  | nil => simp [writeChunks]
  | cons k ks ih =>
      have hone := writeOneChunk_ok host md R V st k (hfail k (by simp))
        (hwf k (by simp))
      rw [writeChunks, hone]
      set st1 : Store := { st with data := fun k' => if k' = k then some (chunkNewBytes host md R V (st.data k) k) else st.data k' } with hst1
      have hknotin : k ∉ ks := (List.nodup_cons.mp hnd).1
      have hdata1 : ∀ k' ∈ ks, st1.data k' = st.data k' := by
        intro k' hk'
        rw [hst1]
        simp only
        rw [if_neg (by rintro rfl; exact hknotin hk')]
      obtain ⟨ho1, ho2, ho3⟩ := ih st1 (List.nodup_cons.mp hnd).2
        (fun k' hk' => by rw [hst1]; exact hfail k' (by simp [hk']))
        (fun k' hk' b hb => by
          rw [hdata1 k' hk'] at hb
          exact hwf k' (by simp [hk']) b hb)
      refine ⟨ho1, by rw [ho2, hst1], ?_⟩
      intro k'
      rw [ho3 k']
      by_cases hmem : k' ∈ ks
      · rw [if_pos hmem, if_pos (by simp [hmem]), hdata1 k' hmem]
      · by_cases heq : k' = k
        · subst heq
          rw [if_neg hmem, if_pos (by simp), hst1]
          simp
        · rw [if_neg hmem, if_neg (by simp [heq, hmem]), hst1]
          simp only
          rw [if_neg heq]

theorem chunkNewBytes_wf (host : Endian) (md : Metadata) (R : Region) (V : Buf)
    (stored : Option (List Nat)) (k : List Nat)
    (hwf : ∀ b, stored = some b → b.length = chunkByteLen md) :
    (chunkNewBytes host md R V stored k).length = chunkByteLen md ∧
      ∀ x ∈ chunkNewBytes host md R V stored k, x < 256 := by
  rw [chunkNewBytes]
  by_cases hcov : coversChunkB R md.chunkShape k = true
  · rw [if_pos hcov]
    exact ⟨length_encodeChunk _ _ _ _, encodeChunk_lt _ _ _ _⟩
  · rw [if_neg hcov]
    cases hst : stored with
    | none => simp only [loadBuf]; exact ⟨length_encodeChunk _ _ _ _, encodeChunk_lt _ _ _ _⟩
    | some bytes =>
        have hlen := hwf bytes hst
        simp only [loadBuf, hlen, if_pos rfl]
        exact ⟨length_encodeChunk _ _ _ _, encodeChunk_lt _ _ _ _⟩

theorem wfStore_writeChunks (host : Endian) (md : Metadata) (R : Region) (V : Buf)
    (ks : List (List Nat)) (st : Store) (hnd : ks.Nodup)
    (hfail : ∀ k ∈ ks, st.failKeys k = false) (hwf : wfStore md st) :
    wfStore md (writeChunks host md R V st ks).1 := by
  obtain ⟨-, -, h3⟩ := writeChunks_ok host md R V ks st hnd hfail
    (fun k _ b hb => (hwf k b hb).1)
  intro k b hb
  rw [h3 k] at hb
  by_cases hmem : k ∈ ks
  · rw [if_pos hmem] at hb
    have := chunkNewBytes_wf host md R V (st.data k) k
      (fun b' hb' => (hwf k b' hb').1)
    cases hb
    exact this
  · rw [if_neg hmem] at hb
    exact hwf k b hb

theorem sub_inBox_of_inRegion (R : Region) (g : List Nat)
    (hg : inRegionB R g = true) :
    inBoxB (List.zipWith (fun a b => a - b) g R.start) (regionShape R) = true := by
  rw [inRegionB, Bool.and_eq_true, pwLeB_iff, pwLtB_iff] at hg
  obtain ⟨⟨hl1, hle⟩, hl2, hlt⟩ := hg
  rw [inBoxB, pwLtB_iff]
  refine ⟨by rw [length_zipWithN, regionShape, length_zipWithN]; omega, ?_⟩
  intro i h1 h2
  have hig : i < g.length := by rw [length_zipWithN] at h1; omega
  have his : i < R.start.length := by omega
  have hit : i < R.stop.length := by omega
  have ha := hle i his hig
  have hb := hlt i hig hit
  simp only [List.get_eq_getElem, List.getElem_zipWith, regionShape] at ha hb ⊢
  omega

theorem mem_sliceAt (buf : List Nat) (off len x : Nat)
    (hx : x ∈ sliceAt buf off len) : x ∈ buf :=
  List.mem_of_mem_drop (List.mem_of_mem_take (by simpa [sliceAt] using hx))

theorem loadBuf_some_wf (host : Endian) (md : Metadata) (bytes : List Nat)
    (h : bytes.length = chunkByteLen md) :
    loadBuf host md (some bytes) =
      .ok (decodeChunk host md.dtype md.chunkShape bytes) := by
  simp [loadBuf, h]

theorem cellValue_writeChunks (host : Endian) (md : Metadata) (R : Region)
    (V : Buf) (st : Store) (g : List Nat)
    (hok : descOkB md.dtype = true)
    (hfill : recOkB md.dtype md.fillValue = true)
    (hcs : ∀ c ∈ md.chunkShape, 0 < c)
    (h1 : R.start.length = md.chunkShape.length)
    (h2 : R.stop.length = md.chunkShape.length)
    (hwf : wfStore md st)
    (hfail : ∀ k ∈ chunkKeysOf R md.chunkShape, st.failKeys k = false)
    (hV : ∀ i, inBoxB i (regionShape R) = true → recOkB md.dtype (V i) = true)
    (hgl : g.length = md.chunkShape.length) :
    cellValue host md (writeChunks host md R V st (chunkKeysOf R md.chunkShape)).1 g =
      if inRegionB R g = true then
        V (List.zipWith (fun a b => a - b) g R.start)
      else cellValue host md st g := by
  obtain ⟨-, -, h3⟩ := writeChunks_ok host md R V (chunkKeysOf R md.chunkShape) st
    (nodup_boxList _ _) hfail (fun k _ b hb => (hwf k b hb).1)
  have hdata := h3 (chunkKeyOf md.chunkShape g)
  have hkglen : (chunkKeyOf md.chunkShape g).length = md.chunkShape.length := by
    rw [chunkKeyOf_length]; omega
  have horg : List.zipWith (· + ·)
      (chunkOrigin md.chunkShape (chunkKeyOf md.chunkShape g))
      (inChunkOf md.chunkShape g) = g := origin_key_add md.chunkShape g hgl
  have hebox : inBoxB (inChunkOf md.chunkShape g) md.chunkShape = true :=
    inChunk_inBox md.chunkShape g hgl hcs
  by_cases hmem : chunkKeyOf md.chunkShape g ∈ chunkKeysOf R md.chunkShape
  · rw [if_pos hmem] at hdata
    have hcell : cellValue host md
        (writeChunks host md R V st (chunkKeysOf R md.chunkShape)).1 g =
        decodeChunk host md.dtype md.chunkShape
          (chunkNewBytes host md R V (st.data (chunkKeyOf md.chunkShape g))
            (chunkKeyOf md.chunkShape g))
          (inChunkOf md.chunkShape g) := by
      rw [cellValue, hdata]
    rw [hcell, chunkNewBytes]
    by_cases hcov : coversChunkB R md.chunkShape (chunkKeyOf md.chunkShape g) = true
    · rw [if_pos hcov]
      have hin : inRegionB R g = true :=
        covers_inRegion R md.chunkShape (chunkKeyOf md.chunkShape g) g hcs hkglen
          h1 h2 hgl hcov rfl
      have hrec : recOkB md.dtype
          (coverBuf R V md.chunkShape (chunkKeyOf md.chunkShape g)
            (inChunkOf md.chunkShape g)) = true := by
        rw [coverBuf]
        simp only [horg]
        exact hV _ (sub_inBox_of_inRegion R g hin)
      rw [decodeChunk_encodeChunk_rec host md.dtype md.chunkShape _ _ hebox hok hrec]
      rw [if_pos hin, coverBuf]
      simp only [horg]
    · rw [if_neg hcov]
      cases hst : st.data (chunkKeyOf md.chunkShape g) with
      | none =>
          simp only [loadBuf]
          have hrec : recOkB md.dtype
              (overlayBuf R V md.chunkShape (chunkKeyOf md.chunkShape g)
                (fun _ => md.fillValue) (inChunkOf md.chunkShape g)) = true := by
            rw [overlayBuf]
            simp only [horg]
            by_cases hin : inRegionB R g = true
            · rw [if_pos hin]
              exact hV _ (sub_inBox_of_inRegion R g hin)
            · rw [if_neg hin]
              exact hfill
          rw [decodeChunk_encodeChunk_rec host md.dtype md.chunkShape _ _ hebox hok hrec]
          rw [overlayBuf]
          simp only [horg]
          by_cases hin : inRegionB R g = true
          · rw [if_pos hin, if_pos hin]
          · rw [if_neg hin, if_neg hin, cellValue, hst]
      | some bytes =>
          have hblen := (hwf _ bytes hst).1
          have hblt := (hwf _ bytes hst).2
          simp only [loadBuf_some_wf host md bytes hblen]
          have hrec : recOkB md.dtype
              (overlayBuf R V md.chunkShape (chunkKeyOf md.chunkShape g)
                (decodeChunk host md.dtype md.chunkShape bytes)
                (inChunkOf md.chunkShape g)) = true := by
            rw [overlayBuf]
            simp only [horg]
            by_cases hin : inRegionB R g = true
            · rw [if_pos hin]
              exact hV _ (sub_inBox_of_inRegion R g hin)
            · rw [if_neg hin]
              apply recOkB_decodeRecord
              intro x hx
              exact hblt x (mem_sliceAt _ _ _ _ hx)
          rw [decodeChunk_encodeChunk_rec host md.dtype md.chunkShape _ _ hebox hok hrec]
          rw [overlayBuf]
          simp only [horg]
          by_cases hin : inRegionB R g = true
          · rw [if_pos hin, if_pos hin]
          · rw [if_neg hin, if_neg hin, cellValue, hst]
  · rw [if_neg hmem] at hdata
    have hnin : ¬ inRegionB R g = true := by
      intro hin
      exact hmem (chunkKeyOf_mem_chunkKeysOf R md.chunkShape g hcs h1 h2 hin)
    rw [if_neg hnin, cellValue, hdata, cellValue]

/-! ## Lemmas: reading chunks -/

theorem readChunks_ok (host : Endian) (md : Metadata) (st : Store) (R : Region)
    (ks : List (List Nat)) (acc : Buf)
    (hwf : ∀ k ∈ ks, ∀ b, st.data k = some b → b.length = chunkByteLen md) :
    ∃ res, readChunks host md st R acc ks = .ok res ∧
      ∀ i, res i =
        if inRegionB R (List.zipWith (· + ·) R.start i) = true ∧
            chunkKeyOf md.chunkShape (List.zipWith (· + ·) R.start i) ∈ ks then
          cellValue host md st (List.zipWith (· + ·) R.start i)
        else acc i := by
  induction ks generalizing acc with
  | nil =>
      refine ⟨acc, rfl, ?_⟩
      intro i
      simp
  | cons k ks ih =>
      rw [readChunks]
      cases hst : st.data k with
      | none =>
          simp only [loadBuf]
          obtain ⟨res, heq, hres⟩ := ih _ (fun k' hk' => hwf k' (by simp [hk']))
          refine ⟨res, heq, ?_⟩
          intro i
          rw [hres i]
          by_cases hin : inRegionB R (List.zipWith (· + ·) R.start i) = true
          · by_cases hmem : chunkKeyOf md.chunkShape
                (List.zipWith (· + ·) R.start i) ∈ ks
            · simp [hin, hmem]
            · by_cases hkeq : chunkKeyOf md.chunkShape
                  (List.zipWith (· + ·) R.start i) = k
              · simp [hin, hmem, hkeq, cellValue, hst]
              · simp [hin, hmem, hkeq]
          · simp [hin]
      | some bytes =>
          have hblen := hwf k (by simp) bytes hst
          rw [loadBuf_some_wf host md bytes hblen]
          obtain ⟨res, heq, hres⟩ := ih _ (fun k' hk' => hwf k' (by simp [hk']))
          refine ⟨res, heq, ?_⟩
          intro i
          rw [hres i]
          by_cases hin : inRegionB R (List.zipWith (· + ·) R.start i) = true
          · by_cases hmem : chunkKeyOf md.chunkShape
                (List.zipWith (· + ·) R.start i) ∈ ks
            · simp [hin, hmem]
            · by_cases hkeq : chunkKeyOf md.chunkShape
                  (List.zipWith (· + ·) R.start i) = k
              · simp [hin, hmem, hkeq, cellValue, hst]
              · simp [hin, hmem, hkeq]
          · simp [hin]

theorem add_inRegion_of_inBox (R : Region) (i : List Nat)
    (hse : R.start.length = R.stop.length)
    (hil : i.length = R.start.length)
    (h : inBoxB i (regionShape R) = true) :
    inRegionB R (List.zipWith (· + ·) R.start i) = true := by
  rw [inBoxB, pwLtB_iff] at h
  obtain ⟨hl, hlt⟩ := h
  rw [inRegionB, Bool.and_eq_true, pwLeB_iff, pwLtB_iff]
  refine ⟨⟨by rw [length_zipWithN]; omega, ?_⟩, by rw [length_zipWithN]; omega, ?_⟩
  · intro j h1 h2
    simp only [List.get_eq_getElem, List.getElem_zipWith]
    omega
  · intro j h1 h2
    have hji : j < i.length := by rw [length_zipWithN] at h1; omega
    have hjr : j < (regionShape R).length := by
      rw [regionShape, length_zipWithN]; omega
    have := hlt j hji hjr
    simp only [List.get_eq_getElem, List.getElem_zipWith, regionShape] at this ⊢
    omega

theorem read_ok (host : Endian) (md : Metadata) (st : Store) (R : Region)
    (hb : pwLeB R.stop md.shape = true) (hse : R.start.length = R.stop.length)
    (h1 : R.start.length = md.chunkShape.length)
    (h2 : R.stop.length = md.chunkShape.length)
    (hcs : ∀ c ∈ md.chunkShape, 0 < c)
    (hwf : ∀ k ∈ chunkKeysOf R md.chunkShape, ∀ b,
      st.data k = some b → b.length = chunkByteLen md) :
    ∃ res, readRegion host md st R = .ok res ∧
      ∀ i, inBoxB i (regionShape R) = true →
        res i = cellValue host md st (List.zipWith (· + ·) R.start i) := by
  unfold readRegion
  rw [if_pos (by rw [hb]; simp [hse])]
  obtain ⟨res, heq, hres⟩ := readChunks_ok host md st R _ (fun _ => md.fillValue) hwf
  refine ⟨res, heq, ?_⟩
  intro i hi
  have hil : i.length = R.start.length := by
    rw [inBoxB, pwLtB_iff] at hi
    obtain ⟨hl, -⟩ := hi
    rw [regionShape, length_zipWithN] at hl
    omega
  have hin := add_inRegion_of_inBox R i hse hil hi
  rw [hres i, if_pos ⟨hin, chunkKeyOf_mem_chunkKeysOf R md.chunkShape _ hcs h1 h2 hin⟩]

/-! ## Lemmas: the write entry point -/

theorem write_eq_writeChunks (host : Endian) (md : Metadata) (st : Store)
    (rs : List DimSpec) (V : Buf) (dims : List (Nat × Nat))
    (hrank : rs.length = md.shape.length)
    (hres : resolveDims md.shape rs = .ok dims) :
    write host md st rs (regionShape (regionOfDims dims)) V =
      writeChunks host md (regionOfDims dims) V st
        (chunkKeysOf (regionOfDims dims) md.chunkShape) := by
  unfold write
  rw [if_neg (by omega), hres]
  simp

theorem resolveDims_length (shape : List Nat) (rs : List DimSpec)
    (dims : List (Nat × Nat)) (h : resolveDims shape rs = .ok dims) :
    dims.length = shape.length := by
  induction shape generalizing rs dims with
  | nil =>
      cases rs with
      | nil => cases h; rfl
      | cons d rs => cases h
  | cons n sh ih =>
      cases rs with
      | nil => cases h
      | cons d rs =>
          cases d with
          | full =>
              simp only [resolveDims] at h
              cases hrec : resolveDims sh rs with
              | error e => rw [hrec] at h; cases h
              | ok l =>
                  rw [hrec] at h
                  cases h
                  simp [ih rs l hrec]
          | slice a b =>
              simp only [resolveDims] at h
              by_cases hb : b ≤ n
              · rw [if_pos hb] at h
                cases hrec : resolveDims sh rs with
                | error e => rw [hrec] at h; cases h
                | ok l =>
                    rw [hrec] at h
                    cases h
                    simp [ih rs l hrec]
              · rw [if_neg hb] at h
                cases h

theorem resolveDims_stop_le (shape : List Nat) (rs : List DimSpec)
    (dims : List (Nat × Nat)) (h : resolveDims shape rs = .ok dims) :
    pwLeB (dims.map Prod.snd) shape = true := by
  induction shape generalizing rs dims with
  | nil =>
      cases rs with
      | nil => cases h; rfl
      | cons d rs => cases h
  | cons n sh ih =>
      cases rs with
      | nil => cases h
      | cons d rs =>
          cases d with
          | full =>
              simp only [resolveDims] at h
              cases hrec : resolveDims sh rs with
              | error e => rw [hrec] at h; cases h
              | ok l =>
                  rw [hrec] at h
                  cases h
                  have hih := ih rs l hrec
                  rw [pwLeB_iff] at hih ⊢
                  obtain ⟨hl, hle⟩ := hih
                  refine ⟨by simpa using hl, ?_⟩
                  intro i h1 h2
                  cases i with
                  | zero => simp
                  | succ i =>
                      have := hle i (by simpa using h1) (by simpa using h2)
                      simpa using this
          | slice a b =>
              simp only [resolveDims] at h
              by_cases hb : b ≤ n
              · rw [if_pos hb] at h
                cases hrec : resolveDims sh rs with
                | error e => rw [hrec] at h; cases h
                | ok l =>
                    rw [hrec] at h
                    cases h
                    have hih := ih rs l hrec
                    rw [pwLeB_iff] at hih ⊢
                    obtain ⟨hl, hle⟩ := hih
                    refine ⟨by simpa using hl, ?_⟩
                    intro i h1 h2
                    cases i with
                    | zero => simpa using hb
                    | succ i =>
                        have := hle i (by simpa using h1) (by simpa using h2)
                        simpa using this
              · rw [if_neg hb] at h
                cases h

theorem add_sub_pw (s i : List Nat) :
    List.zipWith (fun a b => a - b) (List.zipWith (· + ·) s i) s = i.take s.length := by
  induction s generalizing i with
  | nil => simp
  | cons a s ih =>
      cases i with
      | nil => simp
      | cons b i => simp [ih]

/-- Combined success lemma: a valid in-bounds write succeeds, preserves
store well-formedness, and a subsequent read of the same region returns
exactly the written values. -/
theorem write_read_roundtrip_aux (host : Endian) (md : Metadata) (st : Store)
    (rs : List DimSpec) (V : Buf) (dims : List (Nat × Nat))
    (hok : descOkB md.dtype = true)
    (hfill : recOkB md.dtype md.fillValue = true)
    (hcs : ∀ c ∈ md.chunkShape, 0 < c)
    (hrankcs : md.shape.length = md.chunkShape.length)
    (hrank : rs.length = md.shape.length)
    (hres : resolveDims md.shape rs = .ok dims)
    (hwf : wfStore md st)
    (hfail : ∀ k, st.failKeys k = false)
    (hV : ∀ i, inBoxB i (regionShape (regionOfDims dims)) = true →
      recOkB md.dtype (V i) = true) :
    (write host md st rs (regionShape (regionOfDims dims)) V).2 = none ∧
    wfStore md (write host md st rs (regionShape (regionOfDims dims)) V).1 ∧
    ∃ res, readRegion host md
        (write host md st rs (regionShape (regionOfDims dims)) V).1
        (regionOfDims dims) = .ok res ∧
      ∀ i, inBoxB i (regionShape (regionOfDims dims)) = true → res i = V i := by
  have hdl := resolveDims_length md.shape rs dims hres
  have hstart : (regionOfDims dims).start.length = dims.length := by
    simp [regionOfDims]
  have hstop : (regionOfDims dims).stop.length = dims.length := by
    simp [regionOfDims]
  have h1 : (regionOfDims dims).start.length = md.chunkShape.length := by omega
  have h2 : (regionOfDims dims).stop.length = md.chunkShape.length := by omega
  have hse : (regionOfDims dims).start.length = (regionOfDims dims).stop.length := by
    omega
  have hb : pwLeB (regionOfDims dims).stop md.shape = true := by
    have := resolveDims_stop_le md.shape rs dims hres
    simpa [regionOfDims] using this
  rw [write_eq_writeChunks host md st rs V dims hrank hres]
  obtain ⟨hnone, hfk, hdata⟩ := writeChunks_ok host md (regionOfDims dims) V
    (chunkKeysOf (regionOfDims dims) md.chunkShape) st (nodup_boxList _ _)
    (fun k _ => hfail k) (fun k _ b hb' => (hwf k b hb').1)
  have hwf' : wfStore md (writeChunks host md (regionOfDims dims) V st
      (chunkKeysOf (regionOfDims dims) md.chunkShape)).1 :=
    wfStore_writeChunks host md (regionOfDims dims) V _ st (nodup_boxList _ _)
      (fun k _ => hfail k) hwf
  refine ⟨hnone, hwf', ?_⟩
  obtain ⟨res, heq, hres'⟩ := read_ok host md _ (regionOfDims dims) hb hse h1 h2 hcs
    (fun k _ b hb' => (hwf' k b hb').1)
  refine ⟨res, heq, ?_⟩
  intro i hi
  rw [hres' i hi]
  have hil : i.length = (regionOfDims dims).start.length := by
    rw [inBoxB, pwLtB_iff] at hi
    obtain ⟨hl, -⟩ := hi
    rw [regionShape, length_zipWithN] at hl
    omega
  have hgl : (List.zipWith (· + ·) (regionOfDims dims).start i).length
      = md.chunkShape.length := by
    rw [length_zipWithN]; omega
  have hin := add_inRegion_of_inBox (regionOfDims dims) i hse hil hi
  rw [cellValue_writeChunks host md (regionOfDims dims) V st _ hok hfill hcs h1 h2
    hwf (fun k _ => hfail k) hV hgl, if_pos hin, add_sub_pw,
    List.take_of_length_le (by omega)]

/-! ## Lemmas: metadata save/load round-trip -/

theorem decN_encNAux (fuel : Nat) : ∀ (n : Nat) (r : List Nat), n < fuel →
    decN (encNAux fuel n ++ r) = some (n, r) := by
  induction fuel with
  | zero => intro n r h; omega
  | succ fuel ih =>
      intro n r h
      by_cases hn : n = 0
      · subst hn
        simp [encNAux, decN]
      · rw [encNAux, if_neg hn]
        have hlt : n % 255 ≠ 255 := by
          have := Nat.mod_lt n (show 0 < 255 by norm_num)
          omega
        have hdiv : n / 255 < n := Nat.div_lt_self (Nat.pos_of_ne_zero hn) (by norm_num)
        rw [List.cons_append, decN, if_neg hlt]
        simp only [ih (n / 255) r (by omega)]
        have hsum : n % 255 + 255 * (n / 255) = n := by omega
        rw [hsum]

theorem decN_encN (n : Nat) (r : List Nat) : decN (encN n ++ r) = some (n, r) :=
  decN_encNAux (n + 1) n r (by omega)

theorem decListAux_enc (l : List Nat) (r : List Nat) :
    decListAux l.length (l.flatMap encN ++ r) = some (l, r) := by
  induction l generalizing r with
  | nil => rfl
  | cons n l ih =>
      simp only [List.length_cons, List.flatMap_cons, List.append_assoc,
        decListAux, decN_encN, ih r]

theorem decList_encList (l : List Nat) (r : List Nat) :
    decList (encList l ++ r) = some (l, r) := by
  simp only [encList, List.append_assoc, decList, decN_encN, decListAux_enc]

theorem decStr_encStr (s : String) (r : List Nat) :
    decStr (encStr s ++ r) = some (s, r) := by
  simp only [encStr, decStr, decList_encList]
  have hmap : (s.data.map Char.toNat).map Char.ofNat = s.data := by
    rw [List.map_map]
    have hco : (Char.ofNat ∘ Char.toNat) = id := by
      funext c
      exact Char.ofNat_toNat c
    rw [hco, List.map_id]
  rw [hmap]

theorem kindOfTag_kindTag (k : ScalarKind) : kindOfTag (kindTag k) = some k := by
  cases k <;> rfl

theorem orderOfTag_orderTag (o : ByteOrder) : orderOfTag (orderTag o) = some o := by
  cases o <;> rfl

theorem decField_encField (f : FieldSpec) (r : List Nat) :
    decField (encField f ++ r) = some (f, r) := by
  simp only [encField, decField, List.append_assoc, decStr_encStr, decN_encN,
    kindOfTag_kindTag, orderOfTag_orderTag]

theorem decFieldsAux_enc (fs : List FieldSpec) (r : List Nat) :
    decFieldsAux fs.length (fs.flatMap encField ++ r) = some (fs, r) := by
  induction fs generalizing r with
  | nil => rfl
  | cons f fs ih =>
      simp only [List.length_cons, List.flatMap_cons, List.append_assoc,
        decFieldsAux, decField_encField, ih r]

theorem loadMeta_saveMeta (m : Metadata) (h : metaOkB m = true) :
    loadMeta (saveMeta m) = .ok m := by
  have hsave : saveMeta m = encN metaVersion ++ (encList m.shape ++
      (encList m.chunkShape ++ (encN m.dtype.fields.length ++
      (m.dtype.fields.flatMap encField ++ (encList m.fillValue ++ []))))) := by
    rw [saveMeta]
    simp [List.append_assoc]
  rw [loadMeta, hsave]
  simp only [decN_encN, decList_encList, decFieldsAux_enc]
  rw [if_neg (by simp)]
  simp [h]

/-! ## Lemmas: failing chunk writes -/

theorem writeOneChunk_fail (host : Endian) (md : Metadata) (R : Region) (V : Buf)
    (st : Store) (k : List Nat) (hfail : st.failKeys k = true)
    (hwf : ∀ b, st.data k = some b → b.length = chunkByteLen md) :
    writeOneChunk host md R V st k = (st, some .ioErr) := by
  rw [writeOneChunk]
  by_cases hcov : coversChunkB R md.chunkShape k = true
  · simp [hcov, putChunk, hfail]
  · simp only [Bool.not_eq_true] at hcov
    simp only [hcov, Bool.false_eq_true, if_false]
    cases hst : st.data k with
    | none => simp [loadBuf, putChunk, hfail]
    | some bytes =>
        have hlen := hwf bytes hst
        simp [loadBuf, hlen, putChunk, hfail]

theorem writeChunks_fail (host : Endian) (md : Metadata) (R : Region) (V : Buf)
    (pre post : List (List Nat)) (kf : List Nat) (st : Store)
    (hnd : (pre ++ kf :: post).Nodup)
    (hfailpre : ∀ k ∈ pre, st.failKeys k = false)
    (hfailkf : st.failKeys kf = true)
    (hwf : ∀ k ∈ pre ++ [kf], ∀ b, st.data k = some b → b.length = chunkByteLen md) :
    (writeChunks host md R V st (pre ++ kf :: post)).2 = some .ioErr ∧
    ∀ k', (writeChunks host md R V st (pre ++ kf :: post)).1.data k' =
      if k' ∈ pre then some (chunkNewBytes host md R V (st.data k') k')
      else st.data k' := by
  induction pre generalizing st with
  | nil =>
      rw [List.nil_append, writeChunks,
        writeOneChunk_fail host md R V st kf hfailkf (hwf kf (by simp))]
      exact ⟨rfl, fun k' => by simp⟩
  | cons k pre ih =>
      have hone := writeOneChunk_ok host md R V st k
        (hfailpre k (by simp)) (hwf k (by simp))
      rw [List.cons_append, writeChunks, hone]
      set st1 : Store := { st with data := fun k' => if k' = k then some (chunkNewBytes host md R V (st.data k) k) else st.data k' } with hst1
      have hnd' : (pre ++ kf :: post).Nodup := (List.nodup_cons.mp (by simpa using hnd)).2
      have hknotin : k ∉ pre ++ kf :: post :=
        (List.nodup_cons.mp (by simpa using hnd)).1
      have hkne : ∀ k', k' ∈ pre ++ [kf] → k' ≠ k := by
        intro k' hk' heq
        subst heq
        apply hknotin
        rcases List.mem_append.mp hk' with h | h
        · exact List.mem_append.mpr (.inl h)
        · simp only [List.mem_singleton] at h
          subst h
          exact List.mem_append.mpr (.inr (by simp))
      have hdata1 : ∀ k', k' ∈ pre ++ [kf] → st1.data k' = st.data k' := by
        intro k' hk'
        rw [hst1]
        simp only
        rw [if_neg (hkne k' hk')]
      obtain ⟨ho1, ho2⟩ := ih st1 hnd'
        (fun k' hk' => by rw [hst1]; exact hfailpre k' (by simp [hk']))
        (by rw [hst1]; exact hfailkf)
        (fun k' hk' b hb => by
          rw [hdata1 k' hk'] at hb
          exact hwf k' (by
            rcases List.mem_append.mp hk' with h | h
            · exact List.mem_append.mpr (.inl (by simp [h]))
            · exact List.mem_append.mpr (.inr h)) b hb)
      refine ⟨ho1, ?_⟩
      intro k'
      rw [ho2 k']
      by_cases hmem : k' ∈ pre
      · rw [if_pos hmem, if_pos (by simp [hmem]),
          hdata1 k' (List.mem_append.mpr (.inl hmem))]
      · by_cases heq : k' = k
        · subst heq
          rw [if_neg hmem, if_pos (by simp), hst1]
          simp
        · rw [if_neg hmem, if_neg (by simp [heq, hmem]), hst1]
          simp only
          rw [if_neg heq]

/-! ## Lemmas: binary32 and the script's records -/

theorem rneNat_le (n d : Nat) : rneNat n d ≤ n / d + 1 := by
  rw [rneNat]
  split
  · omega
  · split
    · omega
    · split <;> omega

theorem bitsRoundF32Pos_lt (n d : Nat) : bitsRoundF32Pos n d < 2 ^ 31 := by
  rw [bitsRoundF32Pos]
  by_cases hn : n = 0
  · rw [if_pos hn]
    norm_num
  · rw [if_neg hn]
    by_cases hsub : n * 2 ^ 126 < d
    · rw [if_pos hsub]
      have hd : 0 < d := by
        have : 0 < n * 2 ^ 126 := by
          have : 0 < n := Nat.pos_of_ne_zero hn
          positivity
        omega
      have hq : n * 2 ^ 149 / d < 2 ^ 23 := by
        rw [Nat.div_lt_iff_lt_mul hd]
        calc n * 2 ^ 149 = (n * 2 ^ 126) * 2 ^ 23 := by ring
        _ < d * 2 ^ 23 := (Nat.mul_lt_mul_right (by norm_num)).mpr hsub
        _ = 2 ^ 23 * d := by ring
      have := rneNat_le (n * 2 ^ 149) d
      calc rneNat (n * 2 ^ 149) d ≤ n * 2 ^ 149 / d + 1 := this
      _ ≤ 2 ^ 23 := by omega
      _ < 2 ^ 31 := by norm_num
    · rw [if_neg hsub]
      simp only
      split
      · norm_num
      · rename_i hc
        omega

theorem scriptRecord_recOk (a : Nat) : recOkB scriptDtype (scriptRecord a) = true := by
  have h1 : a % 2 ^ 32 < 2 ^ 32 := Nat.mod_lt _ (by norm_num)
  have h2 : bitsRoundF32Pos (a % 2 ^ 32) 10 < 2 ^ 31 := bitsRoundF32Pos_lt _ _
  simp only [recOkB, scriptRecord, scriptDtype, FieldSpec.size, ScalarKind.size,
    List.length_cons, List.length_nil, List.zip_cons_cons, List.all_cons,
    List.all_nil, Bool.and_eq_true, beq_iff_eq, decide_eq_true_eq]
  refine ⟨trivial, ?_, ?_, ?_, rfl⟩
  · show a % 2 ^ 32 < 256 ^ 4
    norm_num at h1 ⊢
    omega
  · show a % 2 ^ 32 < 256 ^ 4
    norm_num at h1 ⊢
    omega
  · show bitsRoundF32Pos (a % 2 ^ 32) 10 < 256 ^ 4
    norm_num at h2 ⊢
    omega

/-! ## Lemmas: region resolution errors and shapes -/

theorem resolveDims_error_eq (shape : List Nat) (rs : List DimSpec) (e : Err)
    (h : resolveDims shape rs = .error e) : e = .outOfBounds := by
  induction shape generalizing rs with
  | nil =>
      cases rs with
      | nil => cases h
      | cons d rs => cases h; rfl
  | cons n sh ih =>
      cases rs with
      | nil => cases h; rfl
      | cons d rs =>
          cases d with
          | full =>
              simp only [resolveDims] at h
              cases hrec : resolveDims sh rs with
              | error e' =>
                  rw [hrec] at h
                  cases h
                  exact ih rs hrec
              | ok l => rw [hrec] at h; cases h
          | slice a b =>
              simp only [resolveDims] at h
              by_cases hb : b ≤ n
              · rw [if_pos hb] at h
                cases hrec : resolveDims sh rs with
                | error e' =>
                    rw [hrec] at h
                    cases h
                    exact ih rs hrec
                | ok l => rw [hrec] at h; cases h
              · rw [if_neg hb] at h
                cases h
                rfl

theorem resolveDims_oob (shape : List Nat) (rs : List DimSpec)
    (hrank : rs.length = shape.length)
    (hoob : ∃ i s t, ∃ (h1 : i < rs.length) (h2 : i < shape.length),
      rs.get ⟨i, h1⟩ = .slice s t ∧ shape.get ⟨i, h2⟩ < t) :
    resolveDims shape rs = .error .outOfBounds := by
  induction shape generalizing rs with
  | nil =>
      obtain ⟨i, s', t, h1, h2, -⟩ := hoob
      simp at h2
  | cons n sh ih =>
      cases rs with
      | nil => simp at hrank
      | cons d rs =>
          obtain ⟨i, st', t, h1, h2, hd, ht⟩ := hoob
          cases i with
          | zero =>
              simp only [List.get_eq_getElem, List.getElem_cons_zero] at hd ht
              subst hd
              simp only [resolveDims]
              rw [if_neg (by omega)]
          | succ i =>
              simp only [List.get_eq_getElem, List.getElem_cons_succ] at hd ht
              have hrec : resolveDims sh rs = .error .outOfBounds := by
                apply ih rs (by simpa using hrank)
                exact ⟨i, st', t, by simpa using h1, by simpa using h2,
                  by simpa using hd, by simpa using ht⟩
              cases d with
              | full => simp only [resolveDims, hrec]; rfl
              | slice a b =>
                  simp only [resolveDims, hrec]
                  by_cases hb : b ≤ n
                  · rw [if_pos hb]
                    rfl
                  · rw [if_neg hb]

theorem resolveDims_regionShape (shape : List Nat) (rs : List DimSpec)
    (dims : List (Nat × Nat)) (h : resolveDims shape rs = .ok dims) :
    regionShape (regionOfDims dims) = requestShape shape rs := by
  induction shape generalizing rs dims with
  | nil =>
      cases rs with
      | nil => cases h; rfl
      | cons d rs => cases h
  | cons n sh ih =>
      cases rs with
      | nil => cases h
      | cons d rs =>
          cases d with
          | full =>
              simp only [resolveDims] at h
              cases hrec : resolveDims sh rs with
              | error e => rw [hrec] at h; cases h
              | ok l =>
                  rw [hrec] at h
                  cases h
                  have := ih rs l hrec
                  simp only [regionShape, regionOfDims, requestShape,
                    List.map_cons, List.zipWith_cons_cons] at this ⊢
                  rw [this]
                  norm_num
          | slice a b =>
              simp only [resolveDims] at h
              by_cases hb : b ≤ n
              · rw [if_pos hb] at h
                cases hrec : resolveDims sh rs with
                | error e => rw [hrec] at h; cases h
                | ok l =>
                    rw [hrec] at h
                    cases h
                    have := ih rs l hrec
                    simp only [regionShape, regionOfDims, requestShape,
                      List.map_cons, List.zipWith_cons_cons] at this ⊢
                    rw [this]
              · rw [if_neg hb] at h
                cases h

/-! ## Claim theorems -/

/-- C1: for every valid region (resolved from an in-bounds request) and
every well-typed value array whose shape equals the region's shape,
`write` succeeds and a subsequent `read` of the same region on the same
array returns the written values exactly — for every descriptor (hence
every supported scalar kind and byte order) and every host order. -/
theorem spec_c1_write_read_roundtrip (host : Endian) (md : Metadata)
    (st : Store) (rs : List DimSpec) (V : Buf) (dims : List (Nat × Nat))
    (hok : descOkB md.dtype = true)
    (hfill : recOkB md.dtype md.fillValue = true)
    (hcs : ∀ c ∈ md.chunkShape, 0 < c)
    (hrankcs : md.shape.length = md.chunkShape.length)
    (hrank : rs.length = md.shape.length)
    (hres : resolveDims md.shape rs = .ok dims)
    (hwf : wfStore md st)
    (hfail : ∀ k, st.failKeys k = false)
    (hV : ∀ i, inBoxB i (regionShape (regionOfDims dims)) = true →
      recOkB md.dtype (V i) = true) :
    (write host md st rs (regionShape (regionOfDims dims)) V).2 = none ∧
    ∃ res, readRegion host md
        (write host md st rs (regionShape (regionOfDims dims)) V).1
        (regionOfDims dims) = .ok res ∧
      ∀ i, inBoxB i (regionShape (regionOfDims dims)) = true → res i = V i := by
  obtain ⟨ha, -, hc⟩ := write_read_roundtrip_aux host md st rs V dims hok hfill
    hcs hrankcs hrank hres hwf hfail hV
  exact ⟨ha, hc⟩

theorem spec_c1_witness :
    (write .little ⟨[4], [2], ⟨[⟨"a", .int8, .little, 0⟩]⟩, [0]⟩ emptyStore
        [.slice 1 3] (regionShape (regionOfDims [(1, 3)])) (fun _ => [3])).2
      = none ∧
    ∃ res, readRegion .little ⟨[4], [2], ⟨[⟨"a", .int8, .little, 0⟩]⟩, [0]⟩
        (write .little ⟨[4], [2], ⟨[⟨"a", .int8, .little, 0⟩]⟩, [0]⟩ emptyStore
          [.slice 1 3] (regionShape (regionOfDims [(1, 3)])) (fun _ => [3])).1
        (regionOfDims [(1, 3)]) = .ok res ∧
      ∀ i, inBoxB i (regionShape (regionOfDims [(1, 3)])) = true →
        res i = (fun _ => ([3] : List Nat)) i :=
  spec_c1_write_read_roundtrip .little ⟨[4], [2], ⟨[⟨"a", .int8, .little, 0⟩]⟩, [0]⟩
    emptyStore [.slice 1 3] (fun _ => [3]) [(1, 3)]
    (by decide) (by decide) (by decide) rfl rfl rfl
    (fun k b hb => nomatch hb) (fun k => rfl)
    (fun i _ => (by decide : recOkB ⟨[⟨"a", .int8, .little, 0⟩]⟩ [3] = true))

/-- C2: in any valid descriptor containing a little-endian field and a
big-endian field, encoding a well-typed record element via the Chunk
Codec's record encoder and decoding it back recovers both field values
exactly, for every host byte order. -/
theorem spec_c2_mixed_endian_roundtrip (host : Endian) (d : Descriptor)
    (v : List Nat) (i j : Nat) (hok : descOkB d = true)
    (hi : i < d.fields.length) (hj : j < d.fields.length)
    (hiv : i < v.length) (hjv : j < v.length)
    (hordi : (d.fields.get ⟨i, hi⟩).order = .little)
    (hordj : (d.fields.get ⟨j, hj⟩).order = .big)
    (hri : v.get ⟨i, hiv⟩ < 256 ^ (d.fields.get ⟨i, hi⟩).size)
    (hrj : v.get ⟨j, hjv⟩ < 256 ^ (d.fields.get ⟨j, hj⟩).size) :
    (decodeRecord host d (encodeRecord host d v))[i]? = some (v.get ⟨i, hiv⟩) ∧
    (decodeRecord host d (encodeRecord host d v))[j]? = some (v.get ⟨j, hjv⟩) :=
  ⟨decodeRecord_encodeRecord_field host d v i hok hi hiv hri,
   decodeRecord_encodeRecord_field host d v j hok hj hjv hrj⟩

theorem spec_c2_witness :
    (decodeRecord .big ⟨[⟨"a", .int32, .little, 0⟩, ⟨"b", .int32, .big, 4⟩]⟩
        (encodeRecord .big ⟨[⟨"a", .int32, .little, 0⟩, ⟨"b", .int32, .big, 4⟩]⟩
          [7, 9]))[0]? = some 7 ∧
    (decodeRecord .big ⟨[⟨"a", .int32, .little, 0⟩, ⟨"b", .int32, .big, 4⟩]⟩
        (encodeRecord .big ⟨[⟨"a", .int32, .little, 0⟩, ⟨"b", .int32, .big, 4⟩]⟩
          [7, 9]))[1]? = some 9 :=
  spec_c2_mixed_endian_roundtrip .big
    ⟨[⟨"a", .int32, .little, 0⟩, ⟨"b", .int32, .big, 4⟩]⟩ [7, 9] 0 1
    (by decide) (by decide) (by decide) (by decide) (by decide)
    rfl rfl (by decide) (by decide)

/-- C4: for every valid metadata value, saving, loading, and re-saving is
idempotent — the re-saved document is byte-identical to the original
save. -/
theorem spec_c4_meta_roundtrip (m : Metadata) (h : metaOkB m = true) :
    resavedMeta m = saveMeta m := by
  rw [resavedMeta, loadMeta_saveMeta m h]

theorem spec_c4_witness :
    metaOkB scriptMeta = true ∧ resavedMeta scriptMeta = saveMeta scriptMeta :=
  ⟨by decide, spec_c4_meta_roundtrip scriptMeta (by decide)⟩

/-- C5: resizing with any dimension smaller than the current shape fails
with `ShrinkNotSupportedError` and leaves the metadata and every stored
chunk unchanged. -/
theorem spec_c5_resize_shrink (md : Metadata) (st : Store) (newShape : List Nat)
    (hlen : newShape.length = md.shape.length)
    (hshrink : ∃ i, ∃ (h1 : i < newShape.length) (h2 : i < md.shape.length),
      newShape.get ⟨i, h1⟩ < md.shape.get ⟨i, h2⟩) :
    resize md st newShape = ((md, st), some .shrinkNotSupported) := by
  rw [resize, if_neg (by omega), if_pos ?hc]
  case hc =>
    rw [List.any_eq_true]
    obtain ⟨i, h1, h2, hlt⟩ := hshrink
    have hz : i < (newShape.zip md.shape).length := by rw [List.length_zip]; omega
    refine ⟨(newShape.zip md.shape).get ⟨i, hz⟩, List.get_mem _ _ _, ?_⟩
    simp only [List.get_eq_getElem, List.getElem_zip, decide_eq_true_eq]
    simpa using hlt

theorem spec_c5_witness :
    resize ⟨[4], [2], ⟨[⟨"a", .int8, .little, 0⟩]⟩, [0]⟩ emptyStore [3] =
      ((⟨[4], [2], ⟨[⟨"a", .int8, .little, 0⟩]⟩, [0]⟩, emptyStore),
        some .shrinkNotSupported) :=
  spec_c5_resize_shrink ⟨[4], [2], ⟨[⟨"a", .int8, .little, 0⟩]⟩, [0]⟩
    emptyStore [3] rfl ⟨0, by decide, by decide, by decide⟩

/-! ## Lemmas: write histories that avoid a region -/

theorem writeOneChunk_failKeys (host : Endian) (md : Metadata) (R : Region)
    (V : Buf) (st : Store) (k : List Nat) :
    (writeOneChunk host md R V st k).1.failKeys = st.failKeys := by
  rw [writeOneChunk]
  by_cases hcov : coversChunkB R md.chunkShape k = true
  · rw [if_pos hcov]
    unfold putChunk
    split
    · rfl
    · rfl
  · rw [if_neg hcov]
    split
    · rfl
    · unfold putChunk
      split
      · rfl
      · rfl

theorem writeChunks_failKeys (host : Endian) (md : Metadata) (R : Region)
    (V : Buf) (ks : List (List Nat)) (st : Store) :
    (writeChunks host md R V st ks).1.failKeys = st.failKeys := by
  induction ks generalizing st with
  | nil => rfl
  | cons k ks ih =>
      rw [writeChunks]
      cases hone : writeOneChunk host md R V st k with
      | mk st' e =>
          have hfk : st'.failKeys = st.failKeys := by
            have := writeOneChunk_failKeys host md R V st k
            rw [hone] at this
            exact this
          cases e with
          | none => rw [ih st', hfk]
          | some e' => exact hfk

theorem applyWrite_failKeys (host : Endian) (md : Metadata) (st : Store)
    (op : WriteOp) : (applyWrite host md st op).failKeys = st.failKeys := by
  rw [applyWrite]
  unfold write
  by_cases hrk : op.rs.length ≠ md.shape.length
  · rw [if_pos hrk]
  · rw [if_neg hrk]
    cases hres : resolveDims md.shape op.rs with
    | error e => rfl
    | ok dims =>
        simp only
        by_cases hvs : op.vshape ≠ regionShape (regionOfDims dims)
        · rw [if_pos hvs]
        · rw [if_neg hvs]
          exact writeChunks_failKeys host md _ op.V _ st

theorem applyWrite_wf (host : Endian) (md : Metadata) (st : Store)
    (op : WriteOp) (hwf : wfStore md st)
    (hfail : ∀ k, st.failKeys k = false) :
    wfStore md (applyWrite host md st op) := by
  rw [applyWrite]
  unfold write
  by_cases hrk : op.rs.length ≠ md.shape.length
  · rw [if_pos hrk]
    exact hwf
  · rw [if_neg hrk]
    cases hres : resolveDims md.shape op.rs with
    | error e => exact hwf
    | ok dims =>
        simp only
        by_cases hvs : op.vshape ≠ regionShape (regionOfDims dims)
        · rw [if_pos hvs]
          exact hwf
        · rw [if_neg hvs]
          exact wfStore_writeChunks host md _ op.V _ st (nodup_boxList _ _)
            (fun k _ => hfail k) hwf

theorem applyWrite_frame (host : Endian) (md : Metadata) (R : Region)
    (st : Store) (op : WriteOp) (g : List Nat)
    (hok : descOkB md.dtype = true)
    (hfill : recOkB md.dtype md.fillValue = true)
    (hcs : ∀ c ∈ md.chunkShape, 0 < c)
    (hrankcs : md.shape.length = md.chunkShape.length)
    (hwf : wfStore md st) (hfail : ∀ k, st.failKeys k = false)
    (htyped : opTyped md op) (havoid : opAvoids md R op)
    (hgl : g.length = md.chunkShape.length)
    (hg : inRegionB R g = true) :
    cellValue host md (applyWrite host md st op) g = cellValue host md st g := by
  rw [applyWrite]
  unfold write
  by_cases hrk : op.rs.length ≠ md.shape.length
  · rw [if_pos hrk]
  · rw [if_neg hrk]
    cases hres : resolveDims md.shape op.rs with
    | error e => rfl
    | ok dims =>
        simp only
        by_cases hvs : op.vshape ≠ regionShape (regionOfDims dims)
        · rw [if_pos hvs]
        · rw [if_neg hvs]
          have hdl := resolveDims_length md.shape op.rs dims hres
          have h1 : (regionOfDims dims).start.length = md.chunkShape.length := by
            simp only [regionOfDims, List.length_map]
            omega
          have h2 : (regionOfDims dims).stop.length = md.chunkShape.length := by
            simp only [regionOfDims, List.length_map]
            omega
          rw [cellValue_writeChunks host md (regionOfDims dims) op.V st g
            hok hfill hcs h1 h2 hwf (fun k _ => hfail k) (htyped dims hres) hgl]
          rw [if_neg ?hng]
          case hng =>
            intro hWg
            rw [havoid dims hres g hWg] at hg
            cases hg

theorem applyWrites_failKeys (host : Endian) (md : Metadata) (st : Store)
    (ops : List WriteOp) :
    (applyWrites host md st ops).failKeys = st.failKeys := by
  induction ops generalizing st with
  | nil => rfl
  | cons op ops ih =>
      rw [applyWrites, List.foldl_cons]
      rw [show List.foldl (applyWrite host md) (applyWrite host md st op) ops
        = applyWrites host md (applyWrite host md st op) ops from rfl]
      rw [ih (applyWrite host md st op), applyWrite_failKeys]

theorem applyWrites_wf (host : Endian) (md : Metadata) (st : Store)
    (ops : List WriteOp) (hwf : wfStore md st)
    (hfail : ∀ k, st.failKeys k = false) :
    wfStore md (applyWrites host md st ops) := by
  induction ops generalizing st with
  | nil => exact hwf
  | cons op ops ih =>
      rw [applyWrites, List.foldl_cons]
      rw [show List.foldl (applyWrite host md) (applyWrite host md st op) ops
        = applyWrites host md (applyWrite host md st op) ops from rfl]
      exact ih (applyWrite host md st op)
        (applyWrite_wf host md st op hwf hfail)
        (fun k => by rw [applyWrite_failKeys]; exact hfail k)

theorem applyWrites_frame (host : Endian) (md : Metadata) (R : Region)
    (st : Store) (ops : List WriteOp) (g : List Nat)
    (hok : descOkB md.dtype = true)
    (hfill : recOkB md.dtype md.fillValue = true)
    (hcs : ∀ c ∈ md.chunkShape, 0 < c)
    (hrankcs : md.shape.length = md.chunkShape.length)
    (hwf : wfStore md st) (hfail : ∀ k, st.failKeys k = false)
    (hops : ∀ op ∈ ops, opTyped md op ∧ opAvoids md R op)
    (hgl : g.length = md.chunkShape.length)
    (hg : inRegionB R g = true) :
    cellValue host md (applyWrites host md st ops) g = cellValue host md st g := by
  induction ops generalizing st with
  | nil => rfl
  | cons op ops ih =>
      rw [applyWrites, List.foldl_cons]
      rw [show List.foldl (applyWrite host md) (applyWrite host md st op) ops
        = applyWrites host md (applyWrite host md st op) ops from rfl]
      rw [ih (applyWrite host md st op)
        (applyWrite_wf host md st op hwf hfail)
        (fun k => by rw [applyWrite_failKeys]; exact hfail k)
        (fun op' hop' => hops op' (by simp [hop']))]
      exact applyWrite_frame host md R st op g hok hfill hcs hrankcs hwf hfail
        (hops op (by simp)).1 (hops op (by simp)).2 hgl hg

theorem inRegionB_singleton_disjoint (a b c d : Nat) (g : List Nat)
    (hdisj : b ≤ c ∨ d ≤ a)
    (hg : inRegionB ⟨[a], [b]⟩ g = true) : inRegionB ⟨[c], [d]⟩ g = false := by
  have hglen : g.length = 1 := by
    rw [inRegionB, Bool.and_eq_true, pwLeB_iff] at hg
    have := hg.1.1
    simpa using this.symm
  obtain ⟨x, rfl⟩ := List.length_eq_one.mp hglen
  simp only [inRegionB, pwLeB, pwLtB, List.length_cons, List.length_nil,
    List.zip_cons_cons, List.zip_nil_right, List.all_cons, List.all_nil,
    Bool.and_eq_true, beq_iff_eq, decide_eq_true_eq, Bool.and_true,
    and_true] at hg
  simp only [inRegionB, pwLeB, pwLtB, List.length_cons, List.length_nil,
    List.zip_cons_cons, List.zip_nil_right, List.all_cons, List.all_nil,
    Bool.and_eq_true, beq_iff_eq, decide_eq_true_eq, Bool.and_true, and_true]
  rw [Bool.eq_false_iff]
  intro hcd
  simp only [Bool.and_eq_true, beq_iff_eq, decide_eq_true_eq, and_true] at hcd
  omega

/-- C6: for every in-bounds region no element of which was ever covered
by a write — the array freshly created and then subjected to any sequence
of well-typed write calls whose regions all avoid the region's cells —
reading the region yields a fully-assigned result in which every element
equals the configured fill value, whether or not chunks intersecting the
region exist in the store (writes elsewhere may have created them). -/
theorem spec_c6_fill_value_read (host : Endian) (md : Metadata) (R : Region)
    (ops : List WriteOp)
    (hok : descOkB md.dtype = true)
    (hfill : recOkB md.dtype md.fillValue = true)
    (hcs : ∀ c ∈ md.chunkShape, 0 < c)
    (hrankcs : md.shape.length = md.chunkShape.length)
    (h1 : R.start.length = md.chunkShape.length)
    (h2 : R.stop.length = md.chunkShape.length)
    (hb : pwLeB R.stop md.shape = true)
    (hops : ∀ op ∈ ops, opTyped md op ∧ opAvoids md R op) :
    ∃ res, readRegion host md (applyWrites host md emptyStore ops) R = .ok res ∧
      ∀ i, inBoxB i (regionShape R) = true → res i = md.fillValue := by
  have hse : R.start.length = R.stop.length := by omega
  have hwfe : wfStore md emptyStore := fun k b hb' => nomatch hb'
  have hfaile : ∀ k, emptyStore.failKeys k = false := fun k => rfl
  have hwf : wfStore md (applyWrites host md emptyStore ops) :=
    applyWrites_wf host md emptyStore ops hwfe hfaile
  obtain ⟨res, heq, hres⟩ := read_ok host md (applyWrites host md emptyStore ops)
    R hb hse h1 h2 hcs (fun k _ b hb' => (hwf k b hb').1)
  refine ⟨res, heq, ?_⟩
  intro i hi
  rw [hres i hi]
  have hil : i.length = R.start.length := by
    rw [inBoxB, pwLtB_iff] at hi
    obtain ⟨hl, -⟩ := hi
    rw [regionShape, length_zipWithN] at hl
    omega
  have hin := add_inRegion_of_inBox R i hse hil hi
  have hgl : (List.zipWith (· + ·) R.start i).length = md.chunkShape.length := by
    rw [length_zipWithN]; omega
  rw [applyWrites_frame host md R emptyStore ops _ hok hfill hcs hrankcs
    hwfe hfaile hops hgl hin]
  rfl

theorem spec_c6_witness :
    ∃ res, readRegion .little ⟨[4], [2], ⟨[⟨"a", .int8, .little, 0⟩]⟩, [7]⟩
        (applyWrites .little ⟨[4], [2], ⟨[⟨"a", .int8, .little, 0⟩]⟩, [7]⟩
          emptyStore [⟨[.slice 0 1], [1], fun _ => [5]⟩]) ⟨[1], [2]⟩ = .ok res ∧
      ∀ i, inBoxB i (regionShape ⟨[1], [2]⟩) = true → res i = [7] :=
  spec_c6_fill_value_read .little ⟨[4], [2], ⟨[⟨"a", .int8, .little, 0⟩]⟩, [7]⟩
    ⟨[1], [2]⟩ [⟨[.slice 0 1], [1], fun _ => [5]⟩]
    (by decide) (by decide) (by decide) rfl rfl rfl (by decide)
    (by
      intro op hop
      rw [List.mem_singleton] at hop
      subst hop
      constructor
      · intro dims hdims i hi
        have hd : dims = [(0, 1)] := (Except.ok.inj hdims).symm
        subst hd
        exact (by decide : recOkB ⟨[⟨"a", .int8, .little, 0⟩]⟩ [5] = true)
      · intro dims hdims g hg
        have hd : dims = [(0, 1)] := (Except.ok.inj hdims).symm
        subst hd
        exact inRegionB_singleton_disjoint 0 1 1 2 g (.inl (by omega)) hg)

/-- C7: a write to a region spanning multiple chunks (including partial
edge chunks) leaves every in-bounds cell that lies in an intersecting
chunk but outside the written region at its prior value — no collateral
overwrite. -/
theorem spec_c7_no_collateral_overwrite (host : Endian) (md : Metadata)
    (st : Store) (rs : List DimSpec) (V : Buf) (dims : List (Nat × Nat))
    (g : List Nat)
    (hok : descOkB md.dtype = true)
    (hfill : recOkB md.dtype md.fillValue = true)
    (hcs : ∀ c ∈ md.chunkShape, 0 < c)
    (hrankcs : md.shape.length = md.chunkShape.length)
    (hrank : rs.length = md.shape.length)
    (hres : resolveDims md.shape rs = .ok dims)
    (hwf : wfStore md st)
    (hfail : ∀ k, st.failKeys k = false)
    (hV : ∀ i, inBoxB i (regionShape (regionOfDims dims)) = true →
      recOkB md.dtype (V i) = true)
    (hgl : g.length = md.chunkShape.length)
    (hgmem : chunkKeyOf md.chunkShape g ∈
      chunkKeysOf (regionOfDims dims) md.chunkShape)
    (hgout : inRegionB (regionOfDims dims) g = false) :
    cellValue host md
        (write host md st rs (regionShape (regionOfDims dims)) V).1 g =
      cellValue host md st g := by
  have hdl := resolveDims_length md.shape rs dims hres
  have h1 : (regionOfDims dims).start.length = md.chunkShape.length := by
    simp only [regionOfDims, List.length_map]
    omega
  have h2 : (regionOfDims dims).stop.length = md.chunkShape.length := by
    simp only [regionOfDims, List.length_map]
    omega
  rw [write_eq_writeChunks host md st rs V dims hrank hres]
  rw [cellValue_writeChunks host md (regionOfDims dims) V st g hok hfill hcs
    h1 h2 hwf (fun k _ => hfail k) hV hgl]
  rw [if_neg (by simp [hgout])]

theorem spec_c7_witness :
    chunkKeyOf [2] [0] ∈ chunkKeysOf (regionOfDims [(1, 3)]) [2] ∧
    inRegionB (regionOfDims [(1, 3)]) [0] = false ∧
    cellValue .little ⟨[4], [2], ⟨[⟨"a", .int8, .little, 0⟩]⟩, [0]⟩
        (write .little ⟨[4], [2], ⟨[⟨"a", .int8, .little, 0⟩]⟩, [0]⟩ emptyStore
          [.slice 1 3] (regionShape (regionOfDims [(1, 3)])) (fun _ => [3])).1
        [0] =
      cellValue .little ⟨[4], [2], ⟨[⟨"a", .int8, .little, 0⟩]⟩, [0]⟩
        emptyStore [0] :=
  ⟨by decide, by decide,
    spec_c7_no_collateral_overwrite .little
      ⟨[4], [2], ⟨[⟨"a", .int8, .little, 0⟩]⟩, [0]⟩ emptyStore [.slice 1 3]
      (fun _ => [3]) [(1, 3)] [0]
      (by decide) (by decide) (by decide) rfl rfl rfl
      (fun k b hb => nomatch hb) (fun k => rfl)
      (fun i _ => (by decide : recOkB ⟨[⟨"a", .int8, .little, 0⟩]⟩ [3] = true))
      rfl (by decide) (by decide)⟩

/-- C8: a write whose requested region has an explicit slice extending
past the array bound fails with `OutOfBoundsError` leaving the store
untouched (full-axis requests are exempt by construction), and a write
whose value shape differs from the requested region's shape fails. -/
theorem spec_c8_write_checks (host : Endian) (md : Metadata) (st : Store)
    (rs : List DimSpec) (vshape : List Nat) (V : Buf)
    (hrank : rs.length = md.shape.length) :
    ((∃ i s t, ∃ (h1 : i < rs.length) (h2 : i < md.shape.length),
        rs.get ⟨i, h1⟩ = .slice s t ∧ md.shape.get ⟨i, h2⟩ < t) →
      write host md st rs vshape V = (st, some .outOfBounds)) ∧
    (vshape ≠ requestShape md.shape rs →
      (write host md st rs vshape V).2 ≠ none) := by
  constructor
  · intro hoob
    have hres := resolveDims_oob md.shape rs (by omega) hoob
    unfold write
    rw [if_neg (by omega)]
    simp only [hres]
  · intro hshape
    unfold write
    rw [if_neg (by omega)]
    cases hres : resolveDims md.shape rs with
    | error e => simp
    | ok dims =>
        simp only [hres]
        have hsh := resolveDims_regionShape md.shape rs dims hres
        rw [if_pos (by rw [hsh]; exact hshape)]
        simp

theorem spec_c8_witness :
    write .little ⟨[4], [2], ⟨[⟨"a", .int8, .little, 0⟩]⟩, [0]⟩ emptyStore
        [.slice 1 5] [9] (fun _ => [0]) = (emptyStore, some .outOfBounds) ∧
    (write .little ⟨[4], [2], ⟨[⟨"a", .int8, .little, 0⟩]⟩, [0]⟩ emptyStore
        [.slice 1 5] [9] (fun _ => [0])).2 ≠ none :=
  ⟨(spec_c8_write_checks .little ⟨[4], [2], ⟨[⟨"a", .int8, .little, 0⟩]⟩, [0]⟩
      emptyStore [.slice 1 5] [9] (fun _ => [0]) rfl).1
      ⟨0, 1, 5, by decide, by decide, rfl, by decide⟩,
   (spec_c8_write_checks .little ⟨[4], [2], ⟨[⟨"a", .int8, .little, 0⟩]⟩, [0]⟩
      emptyStore [.slice 1 5] [9] (fun _ => [0]) rfl).2 (by decide)⟩

/-- C9: when a chunk write fails partway through a multi-chunk write, the
write reports the first failure (an `IOError`), the chunks written before
the failing one keep their new contents, and no later chunk (including
the failing one) is modified — a prefix of the per-chunk updates is
applied, with no rollback and no swallowed error. -/
theorem spec_c9_partial_write_failure (host : Endian) (md : Metadata)
    (st : Store) (rs : List DimSpec) (V : Buf) (dims : List (Nat × Nat))
    (pre post : List (List Nat)) (kf : List Nat)
    (hrank : rs.length = md.shape.length)
    (hres : resolveDims md.shape rs = .ok dims)
    (hkeys : chunkKeysOf (regionOfDims dims) md.chunkShape = pre ++ kf :: post)
    (hfailpre : ∀ k ∈ pre, st.failKeys k = false)
    (hfailkf : st.failKeys kf = true)
    (hwf : wfStore md st) :
    (write host md st rs (regionShape (regionOfDims dims)) V).2 = some .ioErr ∧
    ∀ k', (write host md st rs (regionShape (regionOfDims dims)) V).1.data k' =
      if k' ∈ pre then
        some (chunkNewBytes host md (regionOfDims dims) V (st.data k') k')
      else st.data k' := by
  rw [write_eq_writeChunks host md st rs V dims hrank hres, hkeys]
  exact writeChunks_fail host md (regionOfDims dims) V pre post kf st
    (hkeys ▸ nodup_boxList _ _) hfailpre hfailkf
    (fun k _ b hb => (hwf k b hb).1)

theorem spec_c9_witness :
    (write .little ⟨[4], [2], ⟨[⟨"a", .int8, .little, 0⟩]⟩, [0]⟩
        ⟨fun _ => none, fun k => decide (k = [1])⟩
        [.slice 1 3] (regionShape (regionOfDims [(1, 3)])) (fun _ => [3])).2
      = some .ioErr ∧
    ∀ k', (write .little ⟨[4], [2], ⟨[⟨"a", .int8, .little, 0⟩]⟩, [0]⟩
        ⟨fun _ => none, fun k => decide (k = [1])⟩
        [.slice 1 3] (regionShape (regionOfDims [(1, 3)])) (fun _ => [3])).1.data k' =
      if k' ∈ [[0]] then
        some (chunkNewBytes .little ⟨[4], [2], ⟨[⟨"a", .int8, .little, 0⟩]⟩, [0]⟩
          (regionOfDims [(1, 3)]) (fun _ => [3])
          ((⟨fun _ => none, fun k => decide (k = [1])⟩ : Store).data k') k')
      else (⟨fun _ => none, fun k => decide (k = [1])⟩ : Store).data k' :=
  spec_c9_partial_write_failure .little
    ⟨[4], [2], ⟨[⟨"a", .int8, .little, 0⟩]⟩, [0]⟩
    ⟨fun _ => none, fun k => decide (k = [1])⟩
    [.slice 1 3] (fun _ => [3]) [(1, 3)] [[0]] [] [1]
    rfl rfl (by decide) (by decide) (by decide) (fun k b hb => nomatch hb)

set_option maxRecDepth 100000 in
/-- C3: in the script's concrete scenario — shape (128,128), chunks
(32,32), dtype [field_1: int32 little, field_2: int32 big, field_n:
float32 little], field_1 and field_2 written as the row index broadcast
across columns and field_n as the row index divided by 10 — reading the
element at [5, 10] yields field_1 = 5, field_2 = 5 and field_n = 0.5. -/
theorem spec_c3_script_scenario :
    ∃ res, readRegion .little scriptMeta scriptStore ⟨[5, 10], [6, 11]⟩ = .ok res ∧
      intOfBits 4 ((res [0, 0]).getD 0 0) = 5 ∧
      intOfBits 4 ((res [0, 0]).getD 1 0) = 5 ∧
      ratOfF32 ((res [0, 0]).getD 2 0) = 1 / 2 := by
  have hVok : ∀ i, inBoxB i (regionShape (regionOfDims [(0, 128), (0, 128)])) = true →
      recOkB scriptMeta.dtype (scriptBuf i) = true :=
    fun i _ => scriptRecord_recOk _
  have hwrite : scriptStore = (writeChunks .little scriptMeta
      (regionOfDims [(0, 128), (0, 128)]) scriptBuf emptyStore
      (chunkKeysOf (regionOfDims [(0, 128), (0, 128)])
        scriptMeta.chunkShape)).1 :=
    congrArg Prod.fst (write_eq_writeChunks .little scriptMeta emptyStore
      [.full, .full] scriptBuf [(0, 128), (0, 128)] rfl rfl)
  have hwf' : wfStore scriptMeta scriptStore := by
    rw [hwrite]
    exact wfStore_writeChunks .little scriptMeta _ scriptBuf _ emptyStore
      (nodup_boxList _ _) (fun k _ => rfl) (fun k b hb => nomatch hb)
  obtain ⟨res, heq, hres⟩ := read_ok .little scriptMeta scriptStore
    ⟨[5, 10], [6, 11]⟩ (by decide) rfl rfl rfl (by decide)
    (fun k _ b hb => (hwf' k b hb).1)
  have hcell : res [0, 0] = cellValue .little scriptMeta scriptStore [5, 10] :=
    hres [0, 0] (by decide)
  have hcv : cellValue .little scriptMeta scriptStore [5, 10] =
      scriptBuf [5, 10] := by
    rw [hwrite]
    rw [cellValue_writeChunks .little scriptMeta (regionOfDims [(0, 128), (0, 128)])
      scriptBuf emptyStore [5, 10] (by decide) (by decide) (by decide) rfl rfl
      (fun k b hb => nomatch hb) (fun k _ => rfl) hVok rfl]
    rw [if_pos (by decide)]
    rfl
  refine ⟨res, heq, ?_, ?_, ?_⟩
  · rw [hcell, hcv]
    decide
  · rw [hcell, hcv]
    decide
  · rw [hcell, hcv]
    have hb2 : ((scriptBuf [5, 10]).getD 2 0) = 1056964608 := by decide
    rw [hb2]
    simp only [ratOfF32]
    norm_num

/-- C10: after the script's assignments, for every element index [i, j],
field_1 and field_2 hold the same logical int32 value `i`, even though
field_1 is stored little-endian and field_2 big-endian — the stored
representation of field_2 is the byte-swap of field_1's. -/
theorem spec_c10_mixed_endian_same_value (host : Endian) (i j : Nat)
    (hi : i < 128) (hj : j < 128) :
    intOfBits 4 ((decodeRecord host scriptDtype
        (encodeRecord host scriptDtype (scriptBuf [i, j]))).getD 0 0) = i ∧
    intOfBits 4 ((decodeRecord host scriptDtype
        (encodeRecord host scriptDtype (scriptBuf [i, j]))).getD 1 0) = i ∧
    sliceAt (encodeRecord host scriptDtype (scriptBuf [i, j])) 4 4 =
      (sliceAt (encodeRecord host scriptDtype (scriptBuf [i, j])) 0 4).reverse := by
  have hmod : i % 2 ^ 32 = i := Nat.mod_eq_of_lt (by omega)
  have hbuf : scriptBuf [i, j] =
      [i % 2 ^ 32, i % 2 ^ 32, bitsRoundF32Pos (i % 2 ^ 32) 10] := rfl
  have hlen0 : (0 : Nat) < (scriptBuf [i, j]).length := by
    show (0 : Nat) < 3
    decide
  have hlen1 : (1 : Nat) < (scriptBuf [i, j]).length := by
    show (1 : Nat) < 3
    decide
  have hr0 : (scriptBuf [i, j]).get ⟨0, hlen0⟩ <
      256 ^ (scriptDtype.fields.get ⟨0, by decide⟩).size := by
    show i % 2 ^ 32 < 256 ^ 4
    have := Nat.mod_lt i (show 0 < 2 ^ 32 by norm_num)
    norm_num at this ⊢
    omega
  have hr1 : (scriptBuf [i, j]).get ⟨1, hlen1⟩ <
      256 ^ (scriptDtype.fields.get ⟨1, by decide⟩).size := by
    show i % 2 ^ 32 < 256 ^ 4
    have := Nat.mod_lt i (show 0 < 2 ^ 32 by norm_num)
    norm_num at this ⊢
    omega
  have h0 := decodeRecord_encodeRecord_field host scriptDtype (scriptBuf [i, j])
    0 (by decide) (by decide) hlen0 hr0
  have h1 := decodeRecord_encodeRecord_field host scriptDtype (scriptBuf [i, j])
    1 (by decide) (by decide) hlen1 hr1
  have hzip : scriptDtype.fields.zip (scriptBuf [i, j]) =
      [(⟨"field_1", .int32, .little, 0⟩, i % 2 ^ 32),
       (⟨"field_2", .int32, .big, 4⟩, i % 2 ^ 32),
       (⟨"field_n", .float32, .little, 8⟩, bitsRoundF32Pos (i % 2 ^ 32) 10)] := rfl
  refine ⟨?_, ?_, ?_⟩
  · rw [List.getD_eq_getElem?_getD, h0]
    show intOfBits 4 (i % 2 ^ 32) = i
    rw [hmod, intOfBits, if_pos (by norm_num; omega)]
  · rw [List.getD_eq_getElem?_getD, h1]
    show intOfBits 4 (i % 2 ^ 32) = i
    rw [hmod, intOfBits, if_pos (by norm_num; omega)]
  · have hs1 : sliceAt (encodeRecord host scriptDtype (scriptBuf [i, j])) 0 4 =
        encodeScalar host ⟨"field_1", .int32, .little, 0⟩ (i % 2 ^ 32) := by
      have hat := sliceAt_encodeFieldsInto_at host
        (List.replicate scriptDtype.sizeOf 0) []
        [(⟨"field_2", .int32, .big, 4⟩, i % 2 ^ 32),
         (⟨"field_n", .float32, .little, 8⟩, bitsRoundF32Pos (i % 2 ^ 32) 10)]
        ⟨"field_1", .int32, .little, 0⟩ (i % 2 ^ 32)
        (by
          intro fv hfv
          simp only [List.nil_append, List.mem_cons, List.not_mem_nil] at hfv
          rcases hfv with rfl | rfl | rfl | h
          · show (0 : Nat) + 4 ≤ (List.replicate scriptDtype.sizeOf 0).length
            decide
          · show (4 : Nat) + 4 ≤ (List.replicate scriptDtype.sizeOf 0).length
            decide
          · show (8 : Nat) + 4 ≤ (List.replicate scriptDtype.sizeOf 0).length
            decide
          · cases h)
        (by intro fv hfv; cases hfv)
        (by
          intro fv hfv
          rcases List.mem_cons.mp hfv with rfl | hfv
          · show FieldSpec.disjointB ⟨"field_1", .int32, .little, 0⟩
              ⟨"field_2", .int32, .big, 4⟩ = true
            decide
          · rcases List.mem_cons.mp hfv with rfl | hfv
            · show FieldSpec.disjointB ⟨"field_1", .int32, .little, 0⟩
                ⟨"field_n", .float32, .little, 8⟩ = true
              decide
            · cases hfv)
      rw [encodeRecord, hzip]
      exact hat
    have hs2 : sliceAt (encodeRecord host scriptDtype (scriptBuf [i, j])) 4 4 =
        encodeScalar host ⟨"field_2", .int32, .big, 4⟩ (i % 2 ^ 32) := by
      have hat := sliceAt_encodeFieldsInto_at host
        (List.replicate scriptDtype.sizeOf 0)
        [(⟨"field_1", .int32, .little, 0⟩, i % 2 ^ 32)]
        [(⟨"field_n", .float32, .little, 8⟩, bitsRoundF32Pos (i % 2 ^ 32) 10)]
        ⟨"field_2", .int32, .big, 4⟩ (i % 2 ^ 32)
        (by
          intro fv hfv
          simp only [List.cons_append, List.nil_append, List.mem_cons,
            List.not_mem_nil] at hfv
          rcases hfv with rfl | rfl | rfl | h
          · show (0 : Nat) + 4 ≤ (List.replicate scriptDtype.sizeOf 0).length
            decide
          · show (4 : Nat) + 4 ≤ (List.replicate scriptDtype.sizeOf 0).length
            decide
          · show (8 : Nat) + 4 ≤ (List.replicate scriptDtype.sizeOf 0).length
            decide
          · cases h)
        (by
          intro fv hfv
          rcases List.mem_cons.mp hfv with rfl | hfv
          · show FieldSpec.disjointB ⟨"field_1", .int32, .little, 0⟩
              ⟨"field_2", .int32, .big, 4⟩ = true
            decide
          · cases hfv)
        (by
          intro fv hfv
          rcases List.mem_cons.mp hfv with rfl | hfv
          · show FieldSpec.disjointB ⟨"field_2", .int32, .big, 4⟩
              ⟨"field_n", .float32, .little, 8⟩ = true
            decide
          · cases hfv)
      rw [encodeRecord, hzip]
      exact hat
    rw [hs1, hs2]
    rfl

theorem spec_c10_witness :
    intOfBits 4 ((decodeRecord .little scriptDtype
        (encodeRecord .little scriptDtype (scriptBuf [5, 10]))).getD 0 0) = 5 ∧
    intOfBits 4 ((decodeRecord .little scriptDtype
        (encodeRecord .little scriptDtype (scriptBuf [5, 10]))).getD 1 0) = 5 ∧
    sliceAt (encodeRecord .little scriptDtype (scriptBuf [5, 10])) 4 4 =
      (sliceAt (encodeRecord .little scriptDtype (scriptBuf [5, 10])) 0 4).reverse :=
  spec_c10_mixed_endian_same_value .little 5 10 (by decide) (by decide)
